import Mathlib

/-!
Verification of the conjecture-generation engine of the INP repository
(`conjecture.py`, with the graph-invariant oracles of `inp.py` treated as
external collaborators).

The embedding models:

* the operator registry (`GraphExpression._graph_invariants`,
  `_unary_operators`, `_binary_commutative_operators`,
  `_binary_noncommutative_operators`) as the inductive type `Op` together
  with the four registry lists;
* expressions (`GraphExpression`) as a structure holding a stack of
  operators, with `append`, `extend`, `evaluate` and the enumerator
  `all_expressions` translated from the source;
* statements (`GraphStatement`) including a field `sid` modelling Python
  object identity: `GraphStatement` defines no `__eq__`, so distinct
  statement objects are distinct for the final `set`-based deduplication
  even when their (lhs, comparator, rhs) triples coincide;
* the selector (`GraphBrain.conjecture`) with the corpus passed explicitly
  (it stands for the class attribute `GraphBrain._graph_db`).

Numbers are modelled by `ℚ`; Python exceptions by `Except PyErr`.
`math.sqrt` and fractional powers return floating-point approximations in
Python; here they return a rational stand-in (`ratSqrt`) that is exact on
perfect squares.  No theorem below depends on the value of a square root
or fractional power of a non-square.
-/

/-- Python exception classes that the engine can observe.  `indexError` is
produced exactly by `list.pop()` on an empty list inside
`GraphExpression.evaluate`; `other` stands for every class that is neither
`ValueError` nor `ZeroDivisionError` nor that `IndexError`. -/
inductive PyErr : Type
  | valueError
  | zeroDivisionError
  | indexError
  | other
deriving DecidableEq, Repr

instance {α : Type} [DecidableEq α] : DecidableEq (Except PyErr α) := fun a b =>
  match a, b with
  | .error e, .error e' => decidable_of_iff (e = e') (by simp)
  | .ok v, .ok v' => decidable_of_iff (v = v') (by simp)
  | .error _, .ok _ => isFalse (by simp)
  | .ok _, .error _ => isFalse (by simp)

/-- The functions appearing on expression stacks, one constructor per entry
of the operator registry in `conjecture.py` (graph invariants `alpha` and
`min_degree` from `inp.py`; `math.sqrt`; the `increment` lambda;
`operator.add`, `operator.mul`, `operator.sub`, `operator.truediv`,
`operator.pow`). -/
inductive Op : Type
  | alpha
  | minDegree
  | sqrt
  | increment
  | add
  | mul
  | sub
  | truediv
  | pow
deriving DecidableEq, Repr

/-- `GraphExpression._graph_invariants = [INPGraph.alpha, INPGraph.min_degree]`. -/
def _graph_invariants : List Op := [Op.alpha, Op.minDegree]

/-- `GraphExpression._unary_operators = [math.sqrt, increment]`. -/
def _unary_operators : List Op := [Op.sqrt, Op.increment]

/-- `GraphExpression._binary_commutative_operators = [operator.add, operator.mul]`. -/
def _binary_commutative_operators : List Op := [Op.add, Op.mul]

/-- `GraphExpression._binary_noncommutative_operators =
[operator.sub, operator.truediv, operator.pow]`. -/
def _binary_noncommutative_operators : List Op := [Op.sub, Op.truediv, Op.pow]

/-- A graph as the engine observes it.  The core never inspects graph
internals: it only calls the two invariant oracles `INPGraph.alpha` and
`INPGraph.min_degree`, each of which returns a number or raises (for
example `min_degree` raises a `ValueError` on a graph with no vertices,
since `min([])` does).  A graph is therefore modelled by the pair of
oracle results. -/
structure GraphInfo : Type where
  alpha : Except PyErr ℚ
  minDegree : Except PyErr ℚ
deriving DecidableEq

/-- A graph whose invariant oracles do not raise the `IndexError` that is
reserved in this model for the evaluator's own stack pops. -/
def goodGraph (g : GraphInfo) : Prop :=
  g.alpha ≠ .error .indexError ∧ g.minDegree ≠ .error .indexError

instance (g : GraphInfo) : Decidable (goodGraph g) := by
  unfold goodGraph; infer_instance

/-- Elementary executable integer square root (`Nat.sqrt` is defined by
well-founded recursion and does not reduce inside the kernel): the number
of positive `m` with `m * m ≤ n` is exactly the integer square root. -/
def natSqrtScan (n : ℕ) : ℕ :=
  ((List.range (n + 1)).filter (fun m => decide (1 ≤ m ∧ m * m ≤ n))).length

/-- Rational stand-in for the floating-point result of `math.sqrt` /
fractional powers: exact on perfect squares (numerator and denominator
both squares), an approximation otherwise, mirroring the fact that Python
returns an approximate float.  No theorem in this file depends on its
value at a non-square. -/
def ratSqrt (x : ℚ) : ℚ :=
  (natSqrtScan x.num.toNat : ℚ) / (natSqrtScan x.den : ℚ)

/-- `math.sqrt`: raises `ValueError` on a negative argument, otherwise
returns the (approximate) square root. -/
def pySqrt (x : ℚ) : Except PyErr ℚ :=
  if x < 0 then .error .valueError else .ok (ratSqrt x)

/-- `operator.pow`: integer exponents are exact (`0 ** negative` raises
`ZeroDivisionError`); a fractional exponent of a negative base raises
`ValueError` (Python 2), otherwise Python returns an approximate float,
modelled by `ratSqrt` of an integer power. -/
def pyPow (x y : ℚ) : Except PyErr ℚ :=
  if y.den = 1 then
    if 0 ≤ y.num then .ok (x ^ y.num.toNat)
    else if x = 0 then .error .zeroDivisionError
    else .ok ((x ^ (-y.num).toNat)⁻¹)
  else if x < 0 then .error .valueError
  else .ok (ratSqrt (x ^ y.num.toNat))

/-- The value of a graph-invariant entry of the stack: `op(g)` in
`GraphExpression.evaluate`.  Calling a non-invariant operator on a graph
would be a `TypeError`, modelled by `PyErr.other`; that branch is
unreachable because `evaluate` dispatches on registry membership first. -/
def applyGraphFn : Op → GraphInfo → Except PyErr ℚ
  | .alpha, g => g.alpha
  | .minDegree, g => g.minDegree
  | _, _ => .error .other

/-- The value of a unary operator application `op(operand)`:
`math.sqrt` or the `increment` lambda.  A non-unary operator here would be
a `TypeError` (`PyErr.other`); unreachable under the dispatch of
`evaluate`. -/
def unaryValue : Op → ℚ → Except PyErr ℚ
  | .sqrt, x => pySqrt x
  | .increment, x => .ok (x + 1)
  | _, _ => .error .other

/-- The value of a binary operator application.  The first argument is the
value popped first (the top of the stack), exactly as in
`op(stack.pop(), stack.pop())`. -/
def binaryValue : Op → ℚ → ℚ → Except PyErr ℚ
  | .add, x, y => .ok (x + y)
  | .mul, x, y => .ok (x * y)
  | .sub, x, y => .ok (x - y)
  | .truediv, x, y => if y = 0 then .error .zeroDivisionError else .ok (x / y)
  | .pow, x, y => pyPow x y
  | _, _, _ => .error .other

/-- An immutable postfix expression: `GraphExpression`, holding its
`_stack` of operator references. -/
structure GraphExpression : Type where
  stack : List Op
deriving DecidableEq, Repr

/-- `GraphExpression.append`: a new expression with one more element
(`self._stack + [x]`). -/
def GraphExpression.append (s : GraphExpression) (x : Op) : GraphExpression :=
  ⟨s.stack ++ [x]⟩

/-- `GraphExpression.extend`: a new expression whose stack is the
receiver's followed by the given list (`self._stack + li`). -/
def GraphExpression.extend (s : GraphExpression) (li : List Op) : GraphExpression :=
  ⟨s.stack ++ li⟩

/-- One step of the evaluation loop of `GraphExpression.evaluate`: the
body of `for op in self._stack`, acting on the current value stack (head =
top).  Leaf invariants push `op(g)`; unary operators pop one value; binary
operators pop two values, the dispatch testing registry membership in the
order of the source's `if`/`elif` chain.  A pop on an empty stack is
Python's `IndexError`. -/
def evalOp (g : GraphInfo) (stack : List ℚ) (op : Op) : Except PyErr (List ℚ) :=
  if op ∈ _graph_invariants then
    match applyGraphFn op g with
    | .error e => .error e
    | .ok v => .ok (v :: stack)
  else if op ∈ _unary_operators then
    match stack with
    | [] => .error .indexError
    | x :: rest =>
      match unaryValue op x with
      | .error e => .error e
      | .ok v => .ok (v :: rest)
  else if op ∈ _binary_commutative_operators ∨ op ∈ _binary_noncommutative_operators then
    match stack with
    | x :: y :: rest =>
      match binaryValue op x y with
      | .error e => .error e
      | .ok v => .ok (v :: rest)
    | _ => .error .indexError
  else
    .ok stack

/-- The evaluation loop of `GraphExpression.evaluate`, threading the value
stack through `evalOp` for each element of the expression stack. -/
def evalStack (g : GraphInfo) : List Op → List ℚ → Except PyErr (List ℚ)
  | [], stack => .ok stack
  | op :: rest, stack =>
    match evalOp g stack op with
    | .error e => .error e
    | .ok stack' => evalStack g rest stack'

/-- `GraphExpression.evaluate`: run the postfix program against an
evaluation stack seeded empty and return the final `stack.pop()`. -/
def GraphExpression.evaluate (s : GraphExpression) (g : GraphInfo) : Except PyErr ℚ :=
  match evalStack g s.stack [] with
  | .error e => .error e
  | .ok [] => .error .indexError
  | .ok (v :: _) => .ok v

/-- The pairs enumerated by the equal-complexity commutative case:
`for i, a in enumerate(strings_a): for b in strings_a[i:]`, i.e. every
ordered-by-position pair (an element with itself or with a later
element). -/
def commPairs : List GraphExpression → List (GraphExpression × GraphExpression)
  | [] => []
  | a :: rest => (a :: rest).map (fun b => (a, b)) ++ commPairs rest

/-- The unary-extension branch of `all_expressions`: append every unary
operator to every expression of complexity `complexity - 1`.  `prev i`
stands for the recursive call `all_expressions(i, without)`. -/
def unary_branch (prev : ℕ → List GraphExpression) (complexity : ℕ) : List GraphExpression :=
  (prev (complexity - 1)).flatMap (fun s =>
    _unary_operators.map (fun op => s.append op))

/-- The noncommutative-binary branch of `all_expressions`: for every split
`i` in `range(1, complexity - 1)`, concatenate an expression of complexity
`i`, one of complexity `complexity - 1 - i` and the operator, skipping
`a - a` and `a / a`. -/
def noncomm_branch (prev : ℕ → List GraphExpression) (complexity : ℕ) : List GraphExpression :=
  (List.range' 1 (complexity - 2)).flatMap (fun i =>
    (prev i).flatMap (fun a =>
      (prev (complexity - 1 - i)).flatMap (fun b =>
        _binary_noncommutative_operators.filterMap (fun op =>
          if a.stack = b.stack ∧ (op = Op.sub ∨ op = Op.truediv) then none
          else some ((a.extend b.stack).append op)))))

/-- The commutative-binary branch of `all_expressions`: splits `k` in
`range(1, ceil(complexity / 2))`; for the equal-complexity split only the
position-ordered pairs of `commPairs`, otherwise the full cross
product. -/
def comm_branch (prev : ℕ → List GraphExpression) (complexity : ℕ) : List GraphExpression :=
  (List.range' 1 ((complexity + 1) / 2 - 1)).flatMap (fun k =>
    if k = complexity - 1 - k then
      (commPairs (prev k)).flatMap (fun p =>
        _binary_commutative_operators.map (fun op => (p.1.extend p.2.stack).append op))
    else
      (prev k).flatMap (fun a =>
        (prev (complexity - 1 - k)).flatMap (fun b =>
          _binary_commutative_operators.map (fun op => (a.extend b.stack).append op))))

/-- `GraphExpression.all_expressions`, with an explicit structural fuel so
that the definition reduces inside the kernel (the source recursion always
calls itself at a strictly smaller complexity, so any fuel at least the
complexity computes the same list; see `allExpr_fuel`).  Complexity `0` or
less: the source returns the non-list `GraphExpression([])`, which no
caller ever iterates; the nearest list value `[]` is used.  Complexity
`1`: one expression per leaf invariant other than `without`. -/
def allExpr : ℕ → ℕ → Option Op → List GraphExpression
  | _, 0, _ => []
  | _, 1, without =>
    (_graph_invariants.filter (fun f => ¬ some f = without)).map
      (fun f => GraphExpression.mk [f])
  | 0, _ + 2, _ => []
  | fuel + 1, c + 2, without =>
    unary_branch (fun i => allExpr fuel i without) (c + 2) ++
    noncomm_branch (fun i => allExpr fuel i without) (c + 2) ++
    comm_branch (fun i => allExpr fuel i without) (c + 2)

/-- `GraphExpression.all_expressions(complexity, without)`. -/
def all_expressions (complexity : ℕ) (without : Option Op) : List GraphExpression :=
  allExpr complexity complexity without

/-- The six comparators accepted by the selector (`operator.lt`, `le`,
`eq`, `ne`, `ge`, `gt`). -/
inductive Cmp : Type
  | lt
  | le
  | eq
  | ne
  | ge
  | gt
deriving DecidableEq, Repr

/-- Apply a comparator to two numbers. -/
def cmpApply : Cmp → ℚ → ℚ → Bool
  | .lt, a, b => decide (a < b)
  | .le, a, b => decide (a ≤ b)
  | .eq, a, b => decide (a = b)
  | .ne, a, b => decide (¬ a = b)
  | .ge, a, b => decide (b ≤ a)
  | .gt, a, b => decide (b < a)

/-- `GraphStatement`: a left expression, a comparator and a right
expression.  The class defines no `__eq__` or `__hash__` of its own, so
Python compares statement objects by identity; the field `sid` models that
object identity (each object constructed by the selector gets a fresh
one). -/
structure GraphStatement : Type where
  sid : ℕ
  lhs : GraphExpression
  comparator : Cmp
  rhs : GraphExpression
deriving DecidableEq, Repr

/-- `GraphStatement.evaluate`: `comparator(lhs.evaluate(g),
rhs.evaluate(g))` inside a `try` that turns `ValueError` and
`ZeroDivisionError` into `False`; every other exception propagates.  The
left side is evaluated first, as in Python. -/
def GraphStatement.evaluate (s : GraphStatement) (g : GraphInfo) : Except PyErr Bool :=
  match s.lhs.evaluate g with
  | .error e =>
    if e = .valueError ∨ e = .zeroDivisionError then .ok false else .error e
  | .ok a =>
    match s.rhs.evaluate g with
    | .error e =>
      if e = .valueError ∨ e = .zeroDivisionError then .ok false else .error e
    | .ok b => .ok (cmpApply s.comparator a b)

/-- An element of the `conjectures` list built by `GraphBrain.conjecture`:
the `lt`/`le` and `eq`/`ne` branches append `GraphStatement` objects, the
`gt`/`ge` branch appends the `(lhs value, statement)` tuples of
`evaluated` unchanged. -/
inductive ConjectureItem : Type
  | stmt (s : GraphStatement)
  | pair (v : ℚ) (s : GraphStatement)
deriving DecidableEq, Repr

/-- Python's `filter` with a predicate that can raise: elements are tested
left to right and the first exception propagates. -/
def filterE {α : Type} (p : α → Except PyErr Bool) : List α → Except PyErr (List α)
  | [] => .ok []
  | a :: l =>
    match p a with
    | .error e => .error e
    | .ok keep =>
      match filterE p l with
      | .error e => .error e
      | .ok rest => .ok (if keep then a :: rest else rest)

/-- Python's `map` with a function that can raise: elements are mapped
left to right and the first exception propagates. -/
def mapE {α β : Type} (f : α → Except PyErr β) : List α → Except PyErr (List β)
  | [] => .ok []
  | a :: l =>
    match f a with
    | .error e => .error e
    | .ok b =>
      match mapE f l with
      | .error e => .error e
      | .ok bs => .ok (b :: bs)

/-- `GraphBrain._complexity_limit = 5`. -/
def _complexity_limit : ℕ := 5

/-- The candidate statements of `GraphBrain.conjecture`: the union of
`all_expressions(c, without=invariant)` for `c` in
`range(1, _complexity_limit + 1)`, each paired with the comparator and the
degenerate right-hand expression `GraphExpression([invariant])`.  The
`sid` of each statement is its position in the list, modelling the fresh
object identity of each `GraphStatement(...)` call. -/
def conjectureStatements (comparator : Cmp) (invariant : Op) : List GraphStatement :=
  let rhs := GraphExpression.mk [invariant]
  let expressions :=
    (List.range' 1 _complexity_limit).flatMap (fun c => all_expressions c (some invariant))
  expressions.enum.map (fun p => GraphStatement.mk p.1 p.2 comparator rhs)

/-- The body of the `for g in cls._graph_db` loop of
`GraphBrain.conjecture`: filter the statements true on `g`; for `lt`/`le`
keep the statements whose left value attains the maximum (`max` of an
empty sequence raises `ValueError`); for `gt`/`ge` the symmetric operation
with the minimum, except that the source appends the `(value, statement)`
pairs themselves (it lacks the `map(operator.itemgetter(1), ...)` of the
`lt`/`le` branch); every other comparator keeps all true statements. -/
def conjectureStep (comparator : Cmp) (statements : List GraphStatement)
    (g : GraphInfo) : Except PyErr (List ConjectureItem) :=
  match filterE (fun s => s.evaluate g) statements with
  | .error e => .error e
  | .ok true_statements =>
    if comparator = Cmp.lt ∨ comparator = Cmp.le then
      match mapE (fun s =>
          match s.lhs.evaluate g with
          | .error e => .error e
          | .ok v => .ok (v, s)) true_statements with
      | .error e => .error e
      | .ok [] => .error .valueError
      | .ok (p :: ps) =>
        let best := (ps.map Prod.fst).foldl max p.1
        .ok (((p :: ps).filter (fun q => q.1 = best)).map
          (fun q => ConjectureItem.stmt q.2))
    else if comparator = Cmp.gt ∨ comparator = Cmp.ge then
      match mapE (fun s =>
          match s.lhs.evaluate g with
          | .error e => .error e
          | .ok v => .ok (v, s)) true_statements with
      | .error e => .error e
      | .ok [] => .error .valueError
      | .ok (p :: ps) =>
        let best := (ps.map Prod.fst).foldl min p.1
        .ok (((p :: ps).filter (fun q => q.1 = best)).map
          (fun q => ConjectureItem.pair q.1 q.2))
    else
      .ok (true_statements.map ConjectureItem.stmt)

/-- The `for g in cls._graph_db` loop, accumulating `conjectures`. -/
def conjectureLoop (comparator : Cmp) (statements : List GraphStatement) :
    List GraphInfo → List ConjectureItem → Except PyErr (List ConjectureItem)
  | [], acc => .ok acc
  | g :: gs, acc =>
    match conjectureStep comparator statements g with
    | .error e => .error e
    | .ok items => conjectureLoop comparator statements gs (acc ++ items)

/-- `GraphBrain.conjecture(comparator, invariant)`.  The corpus parameter
`db` stands for the class attribute `GraphBrain._graph_db`.  The final
`list(set(conjectures))` deduplicates by Python equality, which for the
identity-tagged statements (and for the tuples containing them) coincides
with structural equality on `ConjectureItem`. -/
def GraphBrain.conjecture (comparator : Cmp) (invariant : Op)
    (db : List GraphInfo) : Except PyErr (List ConjectureItem) :=
  match conjectureLoop comparator (conjectureStatements comparator invariant) db [] with
  | .error e => .error e
  | .ok conjectures => .ok conjectures.dedup

/-- The fixed corpus `GraphBrain._graph_db`, by its oracle results:
`CompleteGraph(3)` (alpha 1, min degree 2), `ClawGraph()` (alpha 3, min
degree 1), `KillerGraph()` = the graph6 string `'EXCO'` (alpha 4, min
degree 1), `CycleGraph(5)` (alpha 2, min degree 2), `PetersenGraph()`
(alpha 4, min degree 3); the alpha values are the ones documented in
`inp.py`'s doctests. -/
def _graph_db : List GraphInfo :=
  [⟨.ok 1, .ok 2⟩, ⟨.ok 3, .ok 1⟩, ⟨.ok 4, .ok 1⟩, ⟨.ok 2, .ok 2⟩, ⟨.ok 4, .ok 3⟩]

set_option maxRecDepth 10000

/-! ### Basic facts about the enumerator -/

/-- Rewriting under `List.flatMap` with a pointwise-equal function. -/
theorem flatMap_congr {α β : Type} {l : List α} {f g : α → List β}
    (h : ∀ a ∈ l, f a = g a) : l.flatMap f = l.flatMap g := by
  induction l with
  | nil => rfl
  | cons a t ih =>
    simp only [List.flatMap_cons]
    rw [h a (by simp), ih (fun x hx => h x (by simp [hx]))]

/-- The unary branch only consults `prev` at `complexity - 1`. -/
theorem unary_branch_congr {prev prev' : ℕ → List GraphExpression} {c : ℕ}
    (h : ∀ i, i ≤ c - 1 → prev i = prev' i) :
    unary_branch prev c = unary_branch prev' c := by
  unfold unary_branch
  rw [h (c - 1) le_rfl]

/-- The noncommutative branch only consults `prev` below `complexity`. -/
theorem noncomm_branch_congr {prev prev' : ℕ → List GraphExpression} {c : ℕ}
    (h : ∀ i, i ≤ c - 1 → prev i = prev' i) :
    noncomm_branch prev c = noncomm_branch prev' c := by
  unfold noncomm_branch
  apply flatMap_congr
  intro i hi
  rw [List.mem_range'_1] at hi
  rw [h i (by omega), h (c - 1 - i) (by omega)]

/-- The commutative branch only consults `prev` below `complexity`. -/
theorem comm_branch_congr {prev prev' : ℕ → List GraphExpression} {c : ℕ}
    (h : ∀ i, i ≤ c - 1 → prev i = prev' i) :
    comm_branch prev c = comm_branch prev' c := by
  unfold comm_branch
  apply flatMap_congr
  intro k hk
  rw [List.mem_range'_1] at hk
  have hk1 : k ≤ c - 1 := by omega
  have hk2 : c - 1 - k ≤ c - 1 := by omega
  by_cases hEq : k = c - 1 - k
  · simp only [if_pos hEq, h k hk1]
  · simp only [if_neg hEq, h k hk1, h (c - 1 - k) hk2]

/-- Unfolding equation of `allExpr` in the recursive case. -/
theorem allExpr_succ_succ (fuel c : ℕ) (w : Option Op) :
    allExpr (fuel + 1) (c + 2) w =
      unary_branch (fun i => allExpr fuel i w) (c + 2) ++
      noncomm_branch (fun i => allExpr fuel i w) (c + 2) ++
      comm_branch (fun i => allExpr fuel i w) (c + 2) := rfl

/-- The fuel argument of `allExpr` is irrelevant as soon as it is at least
the complexity: the source recursion always descends to a strictly
smaller complexity. -/
theorem allExpr_fuel (fuel : ℕ) :
    ∀ (c : ℕ) (w : Option Op), c ≤ fuel → allExpr fuel c w = allExpr c c w := by
  induction fuel using Nat.strong_induction_on with
  | _ fuel ih =>
    intro c w hc
    match c with
    | 0 => cases fuel <;> rfl
    | 1 => cases fuel <;> rfl
    | (c + 2) =>
      match fuel with
      | 0 => omega
      | (f + 1) =>
        rw [allExpr_succ_succ, allExpr_succ_succ]
        have h : ∀ i, i ≤ (c + 2) - 1 → allExpr f i w = allExpr (c + 1) i w := by
          intro i hi
          rw [ih f (by omega) i w (by omega), ih (c + 1) (by omega) i w (by omega)]
        rw [unary_branch_congr h, noncomm_branch_congr h, comm_branch_congr h]

/-- Unfolding equation of `all_expressions` in the recursive case, with
the recursive occurrences expressed through `all_expressions` itself. -/
theorem all_expressions_succ (c : ℕ) (w : Option Op) :
    all_expressions (c + 2) w =
      unary_branch (fun i => all_expressions i w) (c + 2) ++
      noncomm_branch (fun i => all_expressions i w) (c + 2) ++
      comm_branch (fun i => all_expressions i w) (c + 2) := by
  show allExpr (c + 2) (c + 2) w = _
  rw [allExpr_succ_succ]
  have h : ∀ i, i ≤ (c + 2) - 1 → allExpr (c + 1) i w = all_expressions i w := by
    intro i hi
    exact allExpr_fuel (c + 1) i w (by omega)
  rw [unary_branch_congr h, noncomm_branch_congr h, comm_branch_congr h]

/-- `all_expressions` at complexity 1. -/
theorem all_expressions_one (w : Option Op) :
    all_expressions 1 w =
      (_graph_invariants.filter (fun f => ¬ some f = w)).map
        (fun f => GraphExpression.mk [f]) := rfl

/-- `all_expressions` at complexity 0. -/
theorem all_expressions_zero (w : Option Op) : all_expressions 0 w = [] := rfl

/-! ### commPairs -/

/-- Both components of a `commPairs` element come from the list. -/
theorem mem_commPairs {l : List GraphExpression}
    {p : GraphExpression × GraphExpression} (h : p ∈ commPairs l) :
    p.1 ∈ l ∧ p.2 ∈ l := by
  induction l with
  | nil => simp [commPairs] at h
  | cons a t ih =>
    simp only [commPairs, List.mem_append, List.mem_map] at h
    rcases h with ⟨b, hb, rfl⟩ | h
    · exact ⟨by simp, by simpa using hb⟩
    · rcases ih h with ⟨h1, h2⟩
      exact ⟨by simp [h1], by simp [h2]⟩

/-- In a duplicate-free list, `commPairs` cannot contain a pair both ways
around unless the two components are equal: the enumeration
`for i, a in enumerate(l): for b in l[i:]` visits each unordered pair
once. -/
theorem commPairs_both {l : List GraphExpression} (hl : l.Nodup) :
    ∀ {a b : GraphExpression}, (a, b) ∈ commPairs l →
      (b, a) ∈ commPairs l → a = b := by
  induction l with
  | nil => intro a b hab _; simp [commPairs] at hab
  | cons x t ih =>
    rw [List.nodup_cons] at hl
    intro a b hab hba
    rw [commPairs, List.mem_append] at hab hba
    rcases hab with hab | hab
    · obtain ⟨b', hb', heq⟩ := List.mem_map.1 hab
      injection heq with h1 h2
      subst h1; subst h2
      rcases hba with hba | hba
      · obtain ⟨a', ha', heq'⟩ := List.mem_map.1 hba
        injection heq' with h1 h2
      · exact absurd (mem_commPairs hba).2 hl.1
    · rcases hba with hba | hba
      · obtain ⟨a', ha', heq'⟩ := List.mem_map.1 hba
        injection heq' with h1 h2
        have hbt : b ∈ t := (mem_commPairs hab).2
        rw [← h1] at hbt
        exact absurd hbt hl.1
      · exact ih hl.2 hab hba

/-- `commPairs` of a duplicate-free list is duplicate-free. -/
theorem commPairs_nodup {l : List GraphExpression} (hl : l.Nodup) :
    (commPairs l).Nodup := by
  induction l with
  | nil => simp [commPairs]
  | cons x t ih =>
    rw [List.nodup_cons] at hl
    rw [commPairs, List.nodup_append]
    refine ⟨?_, ih hl.2, ?_⟩
    · exact (List.nodup_cons.mpr hl).map (fun a b h => by
        simpa using congrArg Prod.snd h)
    · intro p hp hp'
      rcases List.mem_map.1 hp with ⟨b, _, rfl⟩
      exact hl.1 (mem_commPairs hp').1

/-! ### Membership in the enumerator -/

/-- Case analysis for membership in `all_expressions` at complexity at
least 2: the element comes from the unary branch, the noncommutative
binary branch (split `i` in `range(1, complexity - 1)`, guard skipping
`a - a` and `a / a`), or the commutative binary branch (split
`k` in `range(1, ceil(complexity / 2))`, position-ordered pairs when both
sides have the same complexity). -/
theorem mem_all_cases {c : ℕ} {w : Option Op} {s : GraphExpression}
    (hs : s ∈ all_expressions (c + 2) w) :
    (∃ t ∈ all_expressions (c + 1) w, ∃ op ∈ _unary_operators, s = t.append op) ∨
    (∃ i, 1 ≤ i ∧ i ≤ c ∧ ∃ a ∈ all_expressions i w,
      ∃ b ∈ all_expressions (c + 1 - i) w,
      ∃ op ∈ _binary_noncommutative_operators,
        ¬(a.stack = b.stack ∧ (op = Op.sub ∨ op = Op.truediv)) ∧
        s = (a.extend b.stack).append op) ∨
    (∃ k, 1 ≤ k ∧ k < (c + 3) / 2 ∧
      ((k = c + 1 - k ∧ ∃ p ∈ commPairs (all_expressions k w),
          ∃ op ∈ _binary_commutative_operators,
          s = (p.1.extend p.2.stack).append op) ∨
       (¬ k = c + 1 - k ∧ ∃ a ∈ all_expressions k w,
          ∃ b ∈ all_expressions (c + 1 - k) w,
          ∃ op ∈ _binary_commutative_operators,
          s = (a.extend b.stack).append op))) := by
  rw [all_expressions_succ] at hs
  rcases List.mem_append.1 hs with hs' | hs
  · rcases List.mem_append.1 hs' with hs | hs
    · left
      unfold unary_branch at hs
      obtain ⟨t, ht, hs⟩ := List.mem_flatMap.1 hs
      obtain ⟨op, hop, heq⟩ := List.mem_map.1 hs
      exact ⟨t, by simpa using ht, op, hop, heq.symm⟩
    · right; left
      unfold noncomm_branch at hs
      obtain ⟨i, hi, hs⟩ := List.mem_flatMap.1 hs
      rw [List.mem_range'_1] at hi
      obtain ⟨a, ha, hs⟩ := List.mem_flatMap.1 hs
      obtain ⟨b, hb, hs⟩ := List.mem_flatMap.1 hs
      obtain ⟨op, hop, heq⟩ := List.mem_filterMap.1 hs
      by_cases hguard : a.stack = b.stack ∧ (op = Op.sub ∨ op = Op.truediv)
      · rw [if_pos hguard] at heq
        exact absurd heq (by simp)
      · rw [if_neg hguard] at heq
        exact ⟨i, by omega, by omega, a, by simpa using ha, b, by simpa using hb,
          op, hop, hguard, (Option.some.inj heq).symm⟩
  · right; right
    unfold comm_branch at hs
    obtain ⟨k, hk, hs⟩ := List.mem_flatMap.1 hs
    rw [List.mem_range'_1] at hk
    refine ⟨k, by omega, by omega, ?_⟩
    by_cases hEq : k = (c + 2) - 1 - k
    · rw [if_pos hEq] at hs
      left
      obtain ⟨p, hp, hs⟩ := List.mem_flatMap.1 hs
      obtain ⟨op, hop, heq⟩ := List.mem_map.1 hs
      exact ⟨by omega, p, by simpa using hp, op, hop, heq.symm⟩
    · rw [if_neg hEq] at hs
      right
      obtain ⟨a, ha, hs⟩ := List.mem_flatMap.1 hs
      obtain ⟨b, hb, hs⟩ := List.mem_flatMap.1 hs
      obtain ⟨op, hop, heq⟩ := List.mem_map.1 hs
      exact ⟨by omega, a, by simpa using ha, b, by simpa using hb, op, hop, heq.symm⟩

/-- Complexity accounting: every expression in `all_expressions(c, w)` has
a stack of exactly `c` elements. -/
theorem length_of_mem_all : ∀ (c : ℕ), 1 ≤ c → ∀ (w : Option Op) (s : GraphExpression),
    s ∈ all_expressions c w → s.stack.length = c := by
  intro c
  induction c using Nat.strong_induction_on with
  | _ c ih =>
    intro hc w s hs
    match c with
    | 1 =>
      rw [all_expressions_one] at hs
      obtain ⟨f, hf, heq⟩ := List.mem_map.1 hs
      rw [← heq]
      rfl
    | (c + 2) =>
      rcases mem_all_cases hs with
        ⟨t, ht, op, hop, rfl⟩ |
        ⟨i, hi1, hi2, a, ha, b, hb, op, hop, hguard, rfl⟩ |
        ⟨k, hk1, hk2, hcase⟩
      · have hlt := ih (c + 1) (by omega) (by omega) w t ht
        simp [GraphExpression.append, hlt]
      · have hla := ih i (by omega) (by omega) w a ha
        have hlb := ih (c + 1 - i) (by omega) (by omega) w b hb
        simp only [GraphExpression.append, GraphExpression.extend,
          List.length_append, List.length_cons, List.length_nil, hla, hlb]
        omega
      · rcases hcase with ⟨hEq, p, hp, op, hop, rfl⟩ | ⟨hne, a, ha, b, hb, op, hop, rfl⟩
        · obtain ⟨hp1, hp2⟩ := mem_commPairs hp
          have hl1 := ih k (by omega) (by omega) w p.1 hp1
          have hl2 := ih k (by omega) (by omega) w p.2 hp2
          simp only [GraphExpression.append, GraphExpression.extend,
            List.length_append, List.length_cons, List.length_nil, hl1, hl2]
          omega
        · have hla := ih k (by omega) (by omega) w a ha
          have hlb := ih (c + 1 - k) (by omega) (by omega) w b hb
          simp only [GraphExpression.append, GraphExpression.extend,
            List.length_append, List.length_cons, List.length_nil, hla, hlb]
          omega

/-! ### Stack effect of an operator and well-formedness of postfix stacks -/

/-- Net change in evaluation-stack height caused by one stack element:
leaf invariants push one value, unary operators pop one and push one,
binary operators pop two and push one. -/
def opNet : Op → ℤ
  | .alpha => 1
  | .minDegree => 1
  | .sqrt => 0
  | .increment => 0
  | .add => -1
  | .mul => -1
  | .sub => -1
  | .truediv => -1
  | .pow => -1

/-- Total net stack effect of a list of operators. -/
def netSum (l : List Op) : ℤ := (l.map opNet).sum

theorem netSum_nil : netSum [] = 0 := rfl

theorem netSum_append (l1 l2 : List Op) :
    netSum (l1 ++ l2) = netSum l1 + netSum l2 := by
  simp [netSum]

/-- A well-formed one-value postfix program: every nonempty proper or full
initial segment leaves at least one value on the stack, and the whole
program leaves exactly one. -/
def StackUnit (l : List Op) : Prop :=
  (∀ n, 1 ≤ n → n ≤ l.length → 1 ≤ netSum (l.take n)) ∧ netSum l = 1

/-- A single leaf invariant is a well-formed program. -/
theorem stackUnit_leaf {f : Op} (hf : f ∈ _graph_invariants) : StackUnit [f] := by
  have hnet : opNet f = 1 := by
    rcases (by simpa [_graph_invariants] using hf : f = Op.alpha ∨ f = Op.minDegree) with rfl | rfl <;> rfl
  constructor
  · intro n h1 h2
    have hn : n = 1 := by
      simp only [List.length_cons, List.length_nil] at h2
      omega
    subst hn
    simp [netSum, hnet]
  · simp [netSum, hnet]

/-- Appending a unary operator preserves well-formedness. -/
theorem stackUnit_unary {l : List Op} (h : StackUnit l) {u : Op}
    (hu : opNet u = 0) : StackUnit (l ++ [u]) := by
  constructor
  · intro n h1 h2
    rw [List.take_append_eq_append_take, netSum_append]
    rcases le_or_lt n l.length with hn | hn
    · have h0 : n - l.length = 0 := by omega
      rw [h0]
      simp only [List.take_zero, netSum_nil, add_zero]
      exact h.1 n h1 hn
    · have hl : l.take n = l := List.take_of_length_le (by omega)
      have h1' : 1 ≤ n - l.length := by omega
      have htake : ([u].take (n - l.length)) = [u] :=
        List.take_of_length_le (by simpa using h1')
      rw [hl, htake, h.2]
      simp [netSum, hu]
  · rw [netSum_append, h.2]
    simp [netSum, hu]

/-- Concatenating two well-formed programs and a binary operator yields a
well-formed program. -/
theorem stackUnit_binary {a b : List Op} (ha : StackUnit a) (hb : StackUnit b)
    {o : Op} (ho : opNet o = -1) : StackUnit (a ++ b ++ [o]) := by
  have hsum : netSum (a ++ b ++ [o]) = 1 := by
    rw [netSum_append, netSum_append, ha.2, hb.2]
    simp [netSum, ho]
  refine ⟨?_, hsum⟩
  intro n h1 h2
  rw [List.append_assoc, List.take_append_eq_append_take, netSum_append,
    List.take_append_eq_append_take, netSum_append]
  rcases le_or_lt n a.length with hn | hn
  · have h0 : n - a.length = 0 := by omega
    rw [h0]
    simp only [List.take_zero, Nat.zero_sub, netSum_nil, add_zero, zero_add]
    exact ha.1 n h1 hn
  · have hta : a.take n = a := List.take_of_length_le (by omega)
    rw [hta, ha.2]
    rcases le_or_lt (n - a.length) b.length with hm | hm
    · have h0 : n - a.length - b.length = 0 := by omega
      rw [h0]
      simp only [List.take_zero, netSum_nil, add_zero]
      have := hb.1 (n - a.length) (by omega) hm
      omega
    · have htb : b.take (n - a.length) = b := List.take_of_length_le (by omega)
      have hto : [o].take (n - a.length - b.length) = [o] :=
        List.take_of_length_le (by simp; omega)
      rw [htb, hto, hb.2]
      simp [netSum, ho]

/-- Every expression produced by the enumerator is a well-formed one-value
postfix program. -/
theorem stackUnit_of_mem_all : ∀ (c : ℕ), 1 ≤ c → ∀ (w : Option Op) (s : GraphExpression),
    s ∈ all_expressions c w → StackUnit s.stack := by
  intro c
  induction c using Nat.strong_induction_on with
  | _ c ih =>
    intro hc w s hs
    match c with
    | 1 =>
      rw [all_expressions_one] at hs
      obtain ⟨f, hf, heq⟩ := List.mem_map.1 hs
      rw [← heq]
      exact stackUnit_leaf (List.mem_of_mem_filter hf)
    | (c + 2) =>
      rcases mem_all_cases hs with
        ⟨t, ht, op, hop, rfl⟩ |
        ⟨i, hi1, hi2, a, ha, b, hb, op, hop, hguard, rfl⟩ |
        ⟨k, hk1, hk2, hcase⟩
      · have hu : opNet op = 0 := by
          rcases (by simpa [_unary_operators] using hop : op = Op.sqrt ∨ op = Op.increment) with rfl | rfl <;> rfl
        exact stackUnit_unary (ih (c + 1) (by omega) (by omega) w t ht) hu
      · have hbin : opNet op = -1 := by
          rcases (by simpa [_binary_noncommutative_operators] using hop :
            op = Op.sub ∨ op = Op.truediv ∨ op = Op.pow) with rfl | rfl | rfl <;> rfl
        exact stackUnit_binary (ih i (by omega) (by omega) w a ha)
          (ih (c + 1 - i) (by omega) (by omega) w b hb) hbin
      · have hbin : ∀ op ∈ _binary_commutative_operators, opNet op = -1 := by
          intro op hop
          rcases (by simpa [_binary_commutative_operators] using hop :
            op = Op.add ∨ op = Op.mul) with rfl | rfl <;> rfl
        rcases hcase with ⟨hEq, p, hp, op, hop, rfl⟩ | ⟨hne, a, ha, b, hb, op, hop, rfl⟩
        · obtain ⟨hp1, hp2⟩ := mem_commPairs hp
          exact stackUnit_binary (ih k (by omega) (by omega) w p.1 hp1)
            (ih k (by omega) (by omega) w p.2 hp2) (hbin op hop)
        · exact stackUnit_binary (ih k (by omega) (by omega) w a ha)
            (ih (c + 1 - k) (by omega) (by omega) w b hb) (hbin op hop)

/-- A concatenation of two well-formed one-value programs splits uniquely:
if `a ++ b = x ++ y` with all four parts well-formed, the split points
coincide.  The proof tracks stack heights: a shorter left part would force
a nonempty initial segment of `b` with net effect zero. -/
theorem stackUnit_decomp_lt {a b x y : List Op} (hb : StackUnit b)
    (hx : StackUnit x) (h : a ++ b = x ++ y)
    (hxa : netSum a = 1) (hlt : a.length < x.length) : False := by
  have htake : a = x.take a.length := by
    have h1 : (a ++ b).take a.length = a := List.take_left a b
    rw [h, List.take_append_eq_append_take] at h1
    have h0 : a.length - x.length = 0 := by omega
    rw [h0] at h1
    simpa using h1.symm
  have hdropsum : netSum (x.drop a.length) = 0 := by
    have hx2 := hx.2
    have : netSum (x.take a.length) + netSum (x.drop a.length) = 1 := by
      rw [← netSum_append, List.take_append_drop]
      exact hx2
    rw [← htake, hxa] at this
    omega
  have hb' : b = x.drop a.length ++ y := by
    have h1 : (a ++ b).drop a.length = b := by
      rw [List.drop_append_eq_append_drop]
      simp
    rw [h] at h1
    rw [List.drop_append_eq_append_drop] at h1
    have h0 : a.length - x.length = 0 := by omega
    rw [h0] at h1
    simpa using h1.symm
  have hlen : (x.drop a.length).length = x.length - a.length := List.length_drop _ _
  have hpre := hb.1 (x.length - a.length) (by omega)
    (by rw [hb']; simp only [List.length_append, hlen]; omega)
  rw [hb', List.take_append_eq_append_take] at hpre
  have h0 : x.length - a.length - (x.drop a.length).length = 0 := by omega
  rw [h0] at hpre
  have htk : (x.drop a.length).take (x.length - a.length) = x.drop a.length :=
    List.take_of_length_le (by omega)
  rw [htk] at hpre
  simp only [List.take_zero, List.append_nil] at hpre
  omega

/-- Unique decomposition of a concatenation of two well-formed one-value
programs. -/
theorem stackUnit_decomp {a b x y : List Op} (ha : StackUnit a) (hb : StackUnit b)
    (hx : StackUnit x) (hy : StackUnit y) (h : a ++ b = x ++ y) :
    a = x ∧ b = y := by
  have hlen : a.length = x.length := by
    rcases lt_trichotomy a.length x.length with hlt | hEq | hgt
    · exact (stackUnit_decomp_lt hb hx h ha.2 hlt).elim
    · exact hEq
    · exact (stackUnit_decomp_lt hy ha h.symm hx.2 hgt).elim
  exact List.append_inj h hlen

/-! ### Evaluation of well-formed expressions -/

/-- Running the evaluation loop over a concatenation whose first part
succeeds continues with the second part. -/
theorem evalStack_append_ok {g : GraphInfo} {l1 : List Op} {st st' : List ℚ}
    (h : evalStack g l1 st = .ok st') (l2 : List Op) :
    evalStack g (l1 ++ l2) st = evalStack g l2 st' := by
  induction l1 generalizing st with
  | nil =>
    rw [evalStack] at h
    injection h with h
    rw [List.nil_append, h]
  | cons op rest ih =>
    rw [evalStack] at h
    rw [List.cons_append, evalStack]
    cases hop : evalOp g st op with
    | error e => rw [hop] at h; exact absurd h (by simp)
    | ok st'' => rw [hop] at h; exact ih h

/-- Running the evaluation loop over a concatenation whose first part
raises propagates the error. -/
theorem evalStack_append_error {g : GraphInfo} {l1 : List Op} {st : List ℚ}
    {e : PyErr} (h : evalStack g l1 st = .error e) (l2 : List Op) :
    evalStack g (l1 ++ l2) st = .error e := by
  induction l1 generalizing st with
  | nil => rw [evalStack] at h; exact absurd h (by simp)
  | cons op rest ih =>
    rw [evalStack] at h
    rw [List.cons_append, evalStack]
    cases hop : evalOp g st op with
    | error e' => rw [hop] at h; rw [← h]
    | ok st'' => rw [hop] at h; exact ih h

/-- The unary operator semantics never produce the evaluator's
`IndexError`. -/
theorem unaryValue_no_index (u : Op) (x : ℚ) :
    ¬ unaryValue u x = .error PyErr.indexError := by
  cases u <;> simp only [unaryValue, pySqrt]
  all_goals first
    | (split <;> simp)
    | simp

/-- The `operator.pow` semantics never produce the evaluator's
`IndexError`. -/
theorem pyPow_no_index (x y : ℚ) : ¬ pyPow x y = .error PyErr.indexError := by
  simp only [pyPow]
  split
  · split
    · simp
    · split <;> simp
  · split <;> simp

/-- The binary operator semantics never produce the evaluator's
`IndexError`. -/
theorem binaryValue_no_index (o : Op) (x y : ℚ) :
    ¬ binaryValue o x y = .error PyErr.indexError := by
  cases o <;> simp only [binaryValue]
  case truediv => split <;> simp
  case pow => exact pyPow_no_index x y
  all_goals simp

/-- An operator list evaluates cleanly when, against every well-behaved
graph and every initial stack, it either raises an error other than the
evaluator's `IndexError` or pushes exactly one value on top of the
untouched initial stack (with error and value independent of that
stack). -/
def EvalsClean (l : List Op) : Prop :=
  ∀ g : GraphInfo, goodGraph g →
    (∃ e, ¬ e = PyErr.indexError ∧ ∀ st, evalStack g l st = .error e) ∨
    (∃ v, ∀ st, evalStack g l st = .ok (v :: st))

/-- A single leaf invariant evaluates cleanly. -/
theorem evalsClean_leaf {f : Op} (hf : f ∈ _graph_invariants) : EvalsClean [f] := by
  intro g hg
  rcases (by simpa [_graph_invariants] using hf : f = Op.alpha ∨ f = Op.minDegree) with rfl | rfl
  · cases halpha : g.alpha with
    | error e =>
      refine Or.inl ⟨e, ?_, fun st => by
        simp [evalStack, evalOp, applyGraphFn, _graph_invariants, halpha]⟩
      intro he
      rw [he] at halpha
      exact hg.1 halpha
    | ok v =>
      exact Or.inr ⟨v, fun st => by
        simp [evalStack, evalOp, applyGraphFn, _graph_invariants, halpha]⟩
  · cases hdeg : g.minDegree with
    | error e =>
      refine Or.inl ⟨e, ?_, fun st => by
        simp [evalStack, evalOp, applyGraphFn, _graph_invariants, hdeg]⟩
      intro he
      rw [he] at hdeg
      exact hg.2 hdeg
    | ok v =>
      exact Or.inr ⟨v, fun st => by
        simp [evalStack, evalOp, applyGraphFn, _graph_invariants, hdeg]⟩

/-- Appending a unary operator preserves clean evaluation. -/
theorem evalsClean_unary {l : List Op} (h : EvalsClean l) {u : Op}
    (hu : u ∈ _unary_operators) : EvalsClean (l ++ [u]) := by
  intro g hg
  have hu' : u = Op.sqrt ∨ u = Op.increment := by simpa [_unary_operators] using hu
  rcases h g hg with ⟨e, he, herr⟩ | ⟨v, hok⟩
  · exact Or.inl ⟨e, he, fun st => evalStack_append_error (herr st) [u]⟩
  · cases huv : unaryValue u v with
    | error e =>
      refine Or.inl ⟨e, fun he => unaryValue_no_index u v (he ▸ huv), fun st => ?_⟩
      rw [evalStack_append_ok (hok st)]
      rcases hu' with rfl | rfl <;>
        simp [evalStack, evalOp, _graph_invariants, _unary_operators, huv]
    | ok v' =>
      refine Or.inr ⟨v', fun st => ?_⟩
      rw [evalStack_append_ok (hok st)]
      rcases hu' with rfl | rfl <;>
        simp [evalStack, evalOp, _graph_invariants, _unary_operators, huv]

/-- Concatenating two cleanly evaluating programs and a binary operator
preserves clean evaluation. -/
theorem evalsClean_binary {a b : List Op} (ha : EvalsClean a) (hb : EvalsClean b)
    {o : Op}
    (ho : o ∈ _binary_commutative_operators ∨ o ∈ _binary_noncommutative_operators) :
    EvalsClean (a ++ b ++ [o]) := by
  intro g hg
  have ho' : (o = Op.add ∨ o = Op.mul) ∨ o = Op.sub ∨ o = Op.truediv ∨ o = Op.pow := by
    simpa [_binary_commutative_operators, _binary_noncommutative_operators] using ho
  rcases ha g hg with ⟨e, he, herr⟩ | ⟨va, hoka⟩
  · refine Or.inl ⟨e, he, fun st => ?_⟩
    rw [List.append_assoc]
    exact evalStack_append_error (herr st) _
  · rcases hb g hg with ⟨e, he, herr⟩ | ⟨vb, hokb⟩
    · refine Or.inl ⟨e, he, fun st => ?_⟩
      rw [List.append_assoc, evalStack_append_ok (hoka st)]
      exact evalStack_append_error (herr _) _
    · cases hbv : binaryValue o vb va with
      | error e =>
        refine Or.inl ⟨e, fun he => binaryValue_no_index o vb va (he ▸ hbv), fun st => ?_⟩
        rw [List.append_assoc, evalStack_append_ok (hoka st),
          evalStack_append_ok (hokb (va :: st))]
        rcases ho' with (rfl | rfl) | rfl | rfl | rfl <;>
          simp [evalStack, evalOp, _graph_invariants, _unary_operators,
            _binary_commutative_operators, _binary_noncommutative_operators, hbv]
      | ok v =>
        refine Or.inr ⟨v, fun st => ?_⟩
        rw [List.append_assoc, evalStack_append_ok (hoka st),
          evalStack_append_ok (hokb (va :: st))]
        rcases ho' with (rfl | rfl) | rfl | rfl | rfl <;>
          simp [evalStack, evalOp, _graph_invariants, _unary_operators,
            _binary_commutative_operators, _binary_noncommutative_operators, hbv]

/-- Every expression produced by the enumerator evaluates cleanly. -/
theorem evalsClean_of_mem_all : ∀ (c : ℕ), 1 ≤ c → ∀ (w : Option Op) (s : GraphExpression),
    s ∈ all_expressions c w → EvalsClean s.stack := by
  intro c
  induction c using Nat.strong_induction_on with
  | _ c ih =>
    intro hc w s hs
    match c with
    | 1 =>
      rw [all_expressions_one] at hs
      obtain ⟨f, hf, heq⟩ := List.mem_map.1 hs
      rw [← heq]
      exact evalsClean_leaf (List.mem_of_mem_filter hf)
    | (c + 2) =>
      rcases mem_all_cases hs with
        ⟨t, ht, op, hop, rfl⟩ |
        ⟨i, hi1, hi2, a, ha, b, hb, op, hop, hguard, rfl⟩ |
        ⟨k, hk1, hk2, hcase⟩
      · exact evalsClean_unary (ih (c + 1) (by omega) (by omega) w t ht) hop
      · exact evalsClean_binary (ih i (by omega) (by omega) w a ha)
          (ih (c + 1 - i) (by omega) (by omega) w b hb) (Or.inr hop)
      · rcases hcase with ⟨hEq, p, hp, op, hop, rfl⟩ | ⟨hne, a, ha, b, hb, op, hop, rfl⟩
        · obtain ⟨hp1, hp2⟩ := mem_commPairs hp
          exact evalsClean_binary (ih k (by omega) (by omega) w p.1 hp1)
            (ih k (by omega) (by omega) w p.2 hp2) (Or.inl hop)
        · exact evalsClean_binary (ih k (by omega) (by omega) w a ha)
            (ih (c + 1 - k) (by omega) (by omega) w b hb) (Or.inl hop)

/-- If a cleanly evaluating expression evaluates to a value, the
evaluation loop pushes exactly that value on any initial stack. -/
theorem evalStack_of_evaluate_ok {l : List Op} (h : EvalsClean l) {g : GraphInfo}
    (hg : goodGraph g) {v : ℚ} (hv : (GraphExpression.mk l).evaluate g = .ok v) :
    ∀ st, evalStack g l st = .ok (v :: st) := by
  rcases h g hg with ⟨e, _, herr⟩ | ⟨v', hok⟩
  · rw [GraphExpression.evaluate] at hv
    simp only [herr []] at hv
    exact absurd hv (by simp)
  · rw [GraphExpression.evaluate] at hv
    simp only [hok []] at hv
    injection hv with hv
    rw [← hv]
    exact hok

/-! ### Duplicate-freedom of the enumerator -/

/-- `flatMap` of duplicate-free lists with pairwise-disjoint images is
duplicate-free. -/
theorem nodup_flatMap {α β : Type} {l : List α} {f : α → List β}
    (h1 : l.Nodup) (h2 : ∀ a ∈ l, (f a).Nodup)
    (h3 : ∀ a ∈ l, ∀ a' ∈ l, ∀ b, b ∈ f a → b ∈ f a' → a = a') :
    (l.flatMap f).Nodup := by
  induction l with
  | nil => simp
  | cons x t ih =>
    rw [List.nodup_cons] at h1
    rw [List.flatMap_cons, List.nodup_append]
    refine ⟨h2 x (by simp), ih h1.2 (fun a ha => h2 a (by simp [ha]))
      (fun a ha a' ha' b hb hb' => h3 a (by simp [ha]) a' (by simp [ha']) b hb hb'), ?_⟩
    intro b hb hb'
    obtain ⟨a, ha, hba⟩ := List.mem_flatMap.1 hb'
    have hxa : x = a := h3 x (by simp) a (by simp [ha]) b hb hba
    rw [hxa] at h1
    exact h1.1 ha

/-- `GraphExpression.append` determines its two arguments. -/
theorem expr_append_inj {t t' : GraphExpression} {op op' : Op}
    (h : t.append op = t'.append op') : t = t' ∧ op = op' := by
  have hs : t.stack ++ [op] = t'.stack ++ [op'] := congrArg GraphExpression.stack h
  obtain ⟨h1, h2⟩ := List.append_inj' hs (by simp)
  refine ⟨?_, by simpa using h2⟩
  cases t; cases t'
  simpa using h1

/-- A binary combination determines its three arguments once the length of
the first part is fixed. -/
theorem expr_comb_inj {a b a' b' : GraphExpression} {op op' : Op}
    (hlen : a.stack.length = a'.stack.length)
    (h : (a.extend b.stack).append op = (a'.extend b'.stack).append op') :
    a = a' ∧ b = b' ∧ op = op' := by
  obtain ⟨h1, h2⟩ := expr_append_inj h
  have hs : a.stack ++ b.stack = a'.stack ++ b'.stack := by
    have := congrArg GraphExpression.stack h1
    simpa [GraphExpression.extend] using this
  obtain ⟨ha, hb⟩ := List.append_inj hs hlen
  refine ⟨?_, ?_, h2⟩
  · cases a; cases a'; simpa using ha
  · cases b; cases b'; simpa using hb

/-- The stack of an appended expression ends in the appended operator. -/
theorem getLast_append_elem (s : GraphExpression) (op : Op) :
    (s.append op).stack.getLast? = some op := by
  simp [GraphExpression.append, List.getLast?_append]

/-- The operator categories of the registry are pairwise disjoint. -/
theorem opcat_unary_noncomm : ∀ op ∈ _unary_operators,
    op ∉ _binary_noncommutative_operators := by decide

theorem opcat_unary_comm : ∀ op ∈ _unary_operators,
    op ∉ _binary_commutative_operators := by decide

theorem opcat_noncomm_comm : ∀ op ∈ _binary_noncommutative_operators,
    op ∉ _binary_commutative_operators := by decide

/-- Form of the elements of the fixed-split noncommutative inner list. -/
theorem mem_noncomm_inner {A B : List GraphExpression} {r : GraphExpression}
    (hr : r ∈ A.flatMap (fun a => B.flatMap (fun b =>
      _binary_noncommutative_operators.filterMap (fun op =>
        if a.stack = b.stack ∧ (op = Op.sub ∨ op = Op.truediv) then none
        else some ((a.extend b.stack).append op))))) :
    ∃ a ∈ A, ∃ b ∈ B, ∃ op ∈ _binary_noncommutative_operators,
      r = (a.extend b.stack).append op := by
  obtain ⟨a, ha, hr⟩ := List.mem_flatMap.1 hr
  obtain ⟨b, hb, hr⟩ := List.mem_flatMap.1 hr
  obtain ⟨op, hop, heq⟩ := List.mem_filterMap.1 hr
  by_cases hguard : a.stack = b.stack ∧ (op = Op.sub ∨ op = Op.truediv)
  · rw [if_pos hguard] at heq
    exact absurd heq (by simp)
  · rw [if_neg hguard] at heq
    exact ⟨a, ha, b, hb, op, hop, (Option.some.inj heq).symm⟩

/-- Form of the elements of the fixed-split commutative cross list. -/
theorem mem_comm_cross {A B : List GraphExpression} {r : GraphExpression}
    (hr : r ∈ A.flatMap (fun a => B.flatMap (fun b =>
      _binary_commutative_operators.map (fun op => (a.extend b.stack).append op)))) :
    ∃ a ∈ A, ∃ b ∈ B, ∃ op ∈ _binary_commutative_operators,
      r = (a.extend b.stack).append op := by
  obtain ⟨a, ha, hr⟩ := List.mem_flatMap.1 hr
  obtain ⟨b, hb, hr⟩ := List.mem_flatMap.1 hr
  obtain ⟨op, hop, heq⟩ := List.mem_map.1 hr
  exact ⟨a, ha, b, hb, op, hop, heq.symm⟩

/-- Form of the elements of the equal-split commutative pair list. -/
theorem mem_comm_pairs_list {A : List GraphExpression} {r : GraphExpression}
    (hr : r ∈ (commPairs A).flatMap (fun p =>
      _binary_commutative_operators.map (fun op => (p.1.extend p.2.stack).append op))) :
    ∃ a ∈ A, ∃ b ∈ A, ∃ op ∈ _binary_commutative_operators,
      r = (a.extend b.stack).append op := by
  obtain ⟨p, hp, hr⟩ := List.mem_flatMap.1 hr
  obtain ⟨op, hop, heq⟩ := List.mem_map.1 hr
  obtain ⟨h1, h2⟩ := mem_commPairs hp
  exact ⟨p.1, h1, p.2, h2, op, hop, heq.symm⟩

/-- Form of the elements of the guarded noncommutative operator list for a
fixed pair of operands. -/
theorem mem_noncomm_guard {a b : GraphExpression} {r : GraphExpression}
    (hr : r ∈ _binary_noncommutative_operators.filterMap (fun op =>
      if a.stack = b.stack ∧ (op = Op.sub ∨ op = Op.truediv) then none
      else some ((a.extend b.stack).append op))) :
    ∃ op ∈ _binary_noncommutative_operators, r = (a.extend b.stack).append op := by
  obtain ⟨op, hop, heq⟩ := List.mem_filterMap.1 hr
  by_cases hg : a.stack = b.stack ∧ (op = Op.sub ∨ op = Op.truediv)
  · rw [if_pos hg] at heq
    exact absurd heq (by simp)
  · rw [if_neg hg] at heq
    exact ⟨op, hop, (Option.some.inj heq).symm⟩

/-- Form of the elements of the noncommutative inner list for a fixed left
operand. -/
theorem mem_noncomm_one {a : GraphExpression} {B : List GraphExpression}
    {r : GraphExpression}
    (hr : r ∈ B.flatMap (fun b =>
      _binary_noncommutative_operators.filterMap (fun op =>
        if a.stack = b.stack ∧ (op = Op.sub ∨ op = Op.truediv) then none
        else some ((a.extend b.stack).append op)))) :
    ∃ b ∈ B, ∃ op ∈ _binary_noncommutative_operators,
      r = (a.extend b.stack).append op := by
  obtain ⟨b, hb, hr⟩ := List.mem_flatMap.1 hr
  obtain ⟨op, hop, heq⟩ := mem_noncomm_guard hr
  exact ⟨b, hb, op, hop, heq⟩

/-- The fixed-split noncommutative inner list is duplicate-free. -/
theorem noncomm_inner_nodup {A B : List GraphExpression}
    (hA : A.Nodup) (hB : B.Nodup)
    (hlen : ∀ a ∈ A, ∀ a' ∈ A, a.stack.length = a'.stack.length) :
    (A.flatMap (fun a => B.flatMap (fun b =>
      _binary_noncommutative_operators.filterMap (fun op =>
        if a.stack = b.stack ∧ (op = Op.sub ∨ op = Op.truediv) then none
        else some ((a.extend b.stack).append op))))).Nodup := by
  apply nodup_flatMap hA
  · intro a _
    apply nodup_flatMap hB
    · intro b _
      refine List.Nodup.filterMap ?_ (by decide)
      intro op op' r hr hr'
      have h1 : r = (a.extend b.stack).append op := by
        rw [Option.mem_def] at hr
        by_cases hg : a.stack = b.stack ∧ (op = Op.sub ∨ op = Op.truediv)
        · rw [if_pos hg] at hr
          exact absurd hr (by simp)
        · rw [if_neg hg] at hr
          exact (Option.some.inj hr).symm
      have h2 : r = (a.extend b.stack).append op' := by
        rw [Option.mem_def] at hr'
        by_cases hg : a.stack = b.stack ∧ (op' = Op.sub ∨ op' = Op.truediv)
        · rw [if_pos hg] at hr'
          exact absurd hr' (by simp)
        · rw [if_neg hg] at hr'
          exact (Option.some.inj hr').symm
      rw [h1] at h2
      exact (expr_append_inj h2).2
    · intro b _ b' _ r hr hr'
      obtain ⟨op, _, rfl⟩ := mem_noncomm_guard hr
      obtain ⟨op', _, heq⟩ := mem_noncomm_guard hr'
      exact (expr_comb_inj rfl heq).2.1
  · intro a ha a' ha' r hr hr'
    obtain ⟨b, _, op, _, rfl⟩ := mem_noncomm_one hr
    obtain ⟨b', _, op', _, heq⟩ := mem_noncomm_one hr'
    exact (expr_comb_inj (hlen a ha a' ha') heq).1

/-- Form of the elements of the commutative inner list for a fixed left
operand. -/
theorem mem_comm_one {a : GraphExpression} {B : List GraphExpression}
    {r : GraphExpression}
    (hr : r ∈ B.flatMap (fun b =>
      _binary_commutative_operators.map (fun op => (a.extend b.stack).append op))) :
    ∃ b ∈ B, ∃ op ∈ _binary_commutative_operators,
      r = (a.extend b.stack).append op := by
  obtain ⟨b, hb, hr⟩ := List.mem_flatMap.1 hr
  obtain ⟨op, hop, heq⟩ := List.mem_map.1 hr
  exact ⟨b, hb, op, hop, heq.symm⟩

/-- The unequal-split commutative cross list is duplicate-free. -/
theorem comm_cross_nodup {A B : List GraphExpression}
    (hA : A.Nodup) (hB : B.Nodup)
    (hlen : ∀ a ∈ A, ∀ a' ∈ A, a.stack.length = a'.stack.length) :
    (A.flatMap (fun a => B.flatMap (fun b =>
      _binary_commutative_operators.map (fun op =>
        (a.extend b.stack).append op)))).Nodup := by
  apply nodup_flatMap hA
  · intro a _
    apply nodup_flatMap hB
    · intro b _
      exact (by decide : _binary_commutative_operators.Nodup).map
        (fun op op' h => (expr_append_inj h).2)
    · intro b _ b' _ r hr hr'
      obtain ⟨op, hop, heq0⟩ := List.mem_map.1 hr
      subst heq0
      obtain ⟨op', hop', heq⟩ := List.mem_map.1 hr'
      exact (expr_comb_inj rfl heq).2.1.symm
  · intro a ha a' ha' r hr hr'
    obtain ⟨b, _, op, _, rfl⟩ := mem_comm_one hr
    obtain ⟨b', _, op', _, heq⟩ := mem_comm_one hr'
    exact (expr_comb_inj (hlen a ha a' ha') heq).1

/-- The equal-split commutative pair list is duplicate-free. -/
theorem comm_pairs_list_nodup {A : List GraphExpression} (hA : A.Nodup)
    (hlen : ∀ a ∈ A, ∀ a' ∈ A, a.stack.length = a'.stack.length) :
    ((commPairs A).flatMap (fun p =>
      _binary_commutative_operators.map (fun op =>
        (p.1.extend p.2.stack).append op))).Nodup := by
  apply nodup_flatMap (commPairs_nodup hA)
  · intro p _
    exact (by decide : _binary_commutative_operators.Nodup).map
      (fun op op' h => (expr_append_inj h).2)
  · intro p hp q hq r hr hr'
    obtain ⟨op, hop, heq0⟩ := List.mem_map.1 hr
    subst heq0
    obtain ⟨op', hop', heq⟩ := List.mem_map.1 hr'
    have h1 := mem_commPairs hp
    have h2 := mem_commPairs hq
    have h3 := expr_comb_inj (hlen q.1 h2.1 p.1 h1.1) heq
    exact Prod.ext h3.1.symm h3.2.1.symm

/-- Every element of the unary branch ends in a unary operator. -/
theorem mem_unary_branch_last {prev : ℕ → List GraphExpression} {c : ℕ}
    {s : GraphExpression} (hs : s ∈ unary_branch prev c) :
    ∃ op ∈ _unary_operators, s.stack.getLast? = some op := by
  unfold unary_branch at hs
  obtain ⟨t, _, hs⟩ := List.mem_flatMap.1 hs
  obtain ⟨op, hop, heq⟩ := List.mem_map.1 hs
  exact ⟨op, hop, by rw [← heq]; exact getLast_append_elem t op⟩

/-- Every element of the noncommutative branch ends in a noncommutative
binary operator. -/
theorem mem_noncomm_branch_last {prev : ℕ → List GraphExpression} {c : ℕ}
    {s : GraphExpression} (hs : s ∈ noncomm_branch prev c) :
    ∃ op ∈ _binary_noncommutative_operators, s.stack.getLast? = some op := by
  unfold noncomm_branch at hs
  obtain ⟨i, _, hs⟩ := List.mem_flatMap.1 hs
  obtain ⟨a, _, b, _, op, hop, rfl⟩ := mem_noncomm_inner hs
  exact ⟨op, hop, getLast_append_elem _ op⟩

/-- Every element of the commutative branch ends in a commutative binary
operator. -/
theorem mem_comm_branch_last {prev : ℕ → List GraphExpression} {c : ℕ}
    {s : GraphExpression} (hs : s ∈ comm_branch prev c) :
    ∃ op ∈ _binary_commutative_operators, s.stack.getLast? = some op := by
  unfold comm_branch at hs
  obtain ⟨k, _, hs⟩ := List.mem_flatMap.1 hs
  by_cases hEq : k = c - 1 - k
  · rw [if_pos hEq] at hs
    obtain ⟨a, _, b, _, op, hop, rfl⟩ := mem_comm_pairs_list hs
    exact ⟨op, hop, getLast_append_elem _ op⟩
  · rw [if_neg hEq] at hs
    obtain ⟨a, _, b, _, op, hop, rfl⟩ := mem_comm_cross hs
    exact ⟨op, hop, getLast_append_elem _ op⟩

/-- The enumerator never produces the same stack twice: `all_expressions`
is duplicate-free at every complexity. -/
theorem all_expressions_nodup : ∀ (c : ℕ) (w : Option Op),
    (all_expressions c w).Nodup := by
  intro c
  induction c using Nat.strong_induction_on with
  | _ c ih =>
    intro w
    match c with
    | 0 => exact List.nodup_nil
    | 1 =>
      rw [all_expressions_one]
      refine List.Nodup.map ?_ (List.Nodup.filter _ (by decide))
      intro f f' h
      injection h with h
      simpa using h
    | (c + 2) =>
      rw [all_expressions_succ]
      have hlen : ∀ i, 1 ≤ i → ∀ a ∈ all_expressions i w, ∀ a' ∈ all_expressions i w,
          a.stack.length = a'.stack.length := by
        intro i hi a ha a' ha'
        rw [length_of_mem_all i hi w a ha, length_of_mem_all i hi w a' ha']
      rw [List.nodup_append]
      refine ⟨?_, ?_, ?_⟩
      · rw [List.nodup_append]
        refine ⟨?_, ?_, ?_⟩
        · unfold unary_branch
          apply nodup_flatMap (ih (c + 1) (by omega) w)
          · intro t _
            exact (by decide : _unary_operators.Nodup).map
              (fun op op' h => (expr_append_inj h).2)
          · intro t _ t' _ r hr hr'
            obtain ⟨op, _, heq⟩ := List.mem_map.1 hr
            obtain ⟨op', _, heq'⟩ := List.mem_map.1 hr'
            rw [← heq'] at heq
            exact (expr_append_inj heq).1
        · unfold noncomm_branch
          apply nodup_flatMap (List.nodup_range' _ _ _ (by norm_num))
          · intro i hi
            rw [List.mem_range'_1] at hi
            exact noncomm_inner_nodup (ih i (by omega) w)
              (ih ((c + 2) - 1 - i) (by omega) w) (hlen i (by omega))
          · intro i hi i' hi' r hr hr'
            rw [List.mem_range'_1] at hi hi'
            obtain ⟨a, ha, b, hb, op, hop, rfl⟩ := mem_noncomm_inner hr
            obtain ⟨a', ha', b', hb', op', hop', heq⟩ := mem_noncomm_inner hr'
            have hau := stackUnit_of_mem_all i (by omega) w a ha
            have hbu := stackUnit_of_mem_all ((c + 2) - 1 - i) (by omega) w b hb
            have hau' := stackUnit_of_mem_all i' (by omega) w a' ha'
            have hbu' := stackUnit_of_mem_all ((c + 2) - 1 - i') (by omega) w b' hb'
            obtain ⟨heq1, _⟩ := expr_append_inj heq
            have hstacks : a.stack ++ b.stack = a'.stack ++ b'.stack := by
              have hc1 := congrArg GraphExpression.stack heq1
              simpa [GraphExpression.extend] using hc1
            obtain ⟨hax, _⟩ := stackUnit_decomp hau hbu hau' hbu' hstacks
            have h1 : a'.stack.length = i' := length_of_mem_all i' (by omega) w a' ha'
            have h2 : a.stack.length = i := length_of_mem_all i (by omega) w a ha
            rw [← hax] at h1
            omega
        · intro s hsU hsN
          obtain ⟨op, hop, hlast⟩ := mem_unary_branch_last hsU
          obtain ⟨op', hop', hlast'⟩ := mem_noncomm_branch_last hsN
          rw [hlast] at hlast'
          injection hlast' with h
          rw [h] at hop
          exact opcat_unary_noncomm op' hop hop'
      · unfold comm_branch
        apply nodup_flatMap (List.nodup_range' _ _ _ (by norm_num))
        · intro k hk
          rw [List.mem_range'_1] at hk
          by_cases hEq : k = (c + 2) - 1 - k
          · rw [if_pos hEq]
            exact comm_pairs_list_nodup (ih k (by omega) w) (hlen k (by omega))
          · rw [if_neg hEq]
            exact comm_cross_nodup (ih k (by omega) w)
              (ih ((c + 2) - 1 - k) (by omega) w) (hlen k (by omega))
        · intro k hk k' hk' r hr hr'
          rw [List.mem_range'_1] at hk hk'
          have hform : ∀ k0, 1 ≤ k0 → k0 + 1 < 1 + (((c + 2) + 1) / 2) →
              ∀ r0 : GraphExpression,
              r0 ∈ (if k0 = (c + 2) - 1 - k0 then
                (commPairs (all_expressions k0 w)).flatMap (fun p =>
                  _binary_commutative_operators.map (fun op =>
                    (p.1.extend p.2.stack).append op))
              else
                (all_expressions k0 w).flatMap (fun a =>
                  (all_expressions ((c + 2) - 1 - k0) w).flatMap (fun b =>
                    _binary_commutative_operators.map (fun op =>
                      (a.extend b.stack).append op)))) →
              ∃ a ∈ all_expressions k0 w, ∃ b ∈ all_expressions ((c + 2) - 1 - k0) w,
                ∃ op ∈ _binary_commutative_operators,
                r0 = (a.extend b.stack).append op := by
            intro k0 h1 h2 r0 hr0
            by_cases hEq : k0 = (c + 2) - 1 - k0
            · rw [if_pos hEq] at hr0
              obtain ⟨a, ha, b, hb, op, hop, rfl⟩ := mem_comm_pairs_list hr0
              refine ⟨a, ha, b, ?_, op, hop, rfl⟩
              rw [← hEq]
              exact hb
            · rw [if_neg hEq] at hr0
              exact mem_comm_cross hr0
          obtain ⟨a, ha, b, hb, op, hop, rfl⟩ := hform k (by omega) (by omega) r hr
          obtain ⟨a', ha', b', hb', op', hop', heq⟩ := hform k' (by omega) (by omega) _ hr'
          have hau := stackUnit_of_mem_all k (by omega) w a ha
          have hbu := stackUnit_of_mem_all ((c + 2) - 1 - k) (by omega) w b hb
          have hau' := stackUnit_of_mem_all k' (by omega) w a' ha'
          have hbu' := stackUnit_of_mem_all ((c + 2) - 1 - k') (by omega) w b' hb'
          obtain ⟨heq1, _⟩ := expr_append_inj heq
          have hstacks : a.stack ++ b.stack = a'.stack ++ b'.stack := by
            have hc1 := congrArg GraphExpression.stack heq1
            simpa [GraphExpression.extend] using hc1
          obtain ⟨hax, _⟩ := stackUnit_decomp hau hbu hau' hbu' hstacks
          have h1 : a'.stack.length = k' := length_of_mem_all k' (by omega) w a' ha'
          have h2 : a.stack.length = k := length_of_mem_all k (by omega) w a ha
          rw [← hax] at h1
          omega
      · intro s hsUN hsC
        obtain ⟨op', hop', hlast'⟩ := mem_comm_branch_last hsC
        rcases List.mem_append.1 hsUN with hsU | hsN
        · obtain ⟨op, hop, hlast⟩ := mem_unary_branch_last hsU
          rw [hlast] at hlast'
          injection hlast' with h
          rw [h] at hop
          exact opcat_unary_comm op' hop hop'
        · obtain ⟨op, hop, hlast⟩ := mem_noncomm_branch_last hsN
          rw [hlast] at hlast'
          injection hlast' with h
          rw [h] at hop
          exact opcat_noncomm_comm op' hop hop'

/-! ### Supporting lemmas for the claim theorems -/

/-- Expressions are equal when their stacks are. -/
theorem expr_ext {s t : GraphExpression} (h : s.stack = t.stack) : s = t := by
  cases s; cases t; simpa using h

/-- Leaf invariants do not belong to the three operator categories. -/
theorem opcat_inv_unary : ∀ x ∈ _graph_invariants, x ∉ _unary_operators := by decide

theorem opcat_inv_comm : ∀ x ∈ _graph_invariants,
    x ∉ _binary_commutative_operators := by decide

theorem opcat_inv_noncomm : ∀ x ∈ _graph_invariants,
    x ∉ _binary_noncommutative_operators := by decide

/-- The excluded leaf never occurs in a generated stack. -/
theorem without_not_mem : ∀ (c : ℕ), 1 ≤ c → ∀ X ∈ _graph_invariants,
    ∀ s ∈ all_expressions c (some X), X ∉ s.stack := by
  intro c
  induction c using Nat.strong_induction_on with
  | _ c ih =>
    intro hc X hX s hs
    match c with
    | 1 =>
      rw [all_expressions_one] at hs
      obtain ⟨f, hf, heq⟩ := List.mem_map.1 hs
      rw [List.mem_filter] at hf
      have hfX : ¬ f = X := by simpa using hf.2
      rw [← heq]
      simpa using fun h => hfX h.symm
    | (c + 2) =>
      rcases mem_all_cases hs with
        ⟨t, ht, op, hop, rfl⟩ |
        ⟨i, hi1, hi2, a, ha, b, hb, op, hop, hguard, rfl⟩ |
        ⟨k, hk1, hk2, hcase⟩
      · intro hmem
        rcases List.mem_append.1 hmem with hmem | hmem
        · exact ih (c + 1) (by omega) (by omega) X hX t ht hmem
        · have : X = op := by simpa using hmem
          rw [this] at hX
          exact opcat_inv_unary op hX hop
      · intro hmem
        rcases List.mem_append.1 hmem with hmem | hmem
        · rcases List.mem_append.1 hmem with hmem | hmem
          · exact ih i (by omega) (by omega) X hX a ha hmem
          · exact ih (c + 1 - i) (by omega) (by omega) X hX b hb hmem
        · have : X = op := by simpa using hmem
          rw [this] at hX
          exact opcat_inv_noncomm op hX hop
      · rcases hcase with ⟨hEq, p, hp, op, hop, rfl⟩ | ⟨hne, a, ha, b, hb, op, hop, rfl⟩
        · obtain ⟨hp1, hp2⟩ := mem_commPairs hp
          intro hmem
          rcases List.mem_append.1 hmem with hmem | hmem
          · rcases List.mem_append.1 hmem with hmem | hmem
            · exact ih k (by omega) (by omega) X hX p.1 hp1 hmem
            · exact ih k (by omega) (by omega) X hX p.2 hp2 hmem
          · have : X = op := by simpa using hmem
            rw [this] at hX
            exact opcat_inv_comm op hX hop
        · intro hmem
          rcases List.mem_append.1 hmem with hmem | hmem
          · rcases List.mem_append.1 hmem with hmem | hmem
            · exact ih k (by omega) (by omega) X hX a ha hmem
            · exact ih (c + 1 - k) (by omega) (by omega) X hX b hb hmem
          · have : X = op := by simpa using hmem
            rw [this] at hX
            exact opcat_inv_comm op hX hop

/-- `filter` with a predicate that is false everywhere yields the empty
list. -/
theorem filterE_false {α : Type} {p : α → Except PyErr Bool} {l : List α}
    (h : ∀ a ∈ l, p a = .ok false) : filterE p l = .ok [] := by
  induction l with
  | nil => rfl
  | cons a t ih =>
    rw [filterE, h a (by simp), ih (fun x hx => h x (by simp [hx]))]
    rfl

/-- Membership in a commutative-root expression of `all_expressions`
forces the split to lie strictly below the midpoint, and, in the
equal-complexity case, the operand pair to be one of the position-ordered
pairs. -/
theorem comm_root_split {c : ℕ} {w : Option Op} {a b : GraphExpression}
    {i j : ℕ} {op : Op} (hop : op ∈ _binary_commutative_operators)
    (hi : 1 ≤ i) (hj : 1 ≤ j)
    (ha : a ∈ all_expressions i w) (hb : b ∈ all_expressions j w)
    (hij : i + j + 1 = c)
    (hmem : (a.extend b.stack).append op ∈ all_expressions c w) :
    i < (c + 1) / 2 ∧ (i = j → (a, b) ∈ commPairs (all_expressions i w)) := by
  obtain ⟨c', rfl⟩ : ∃ c', c = c' + 2 := ⟨i + j - 1, by omega⟩
  have hau := stackUnit_of_mem_all i hi w a ha
  have hbu := stackUnit_of_mem_all j hj w b hb
  have hla := length_of_mem_all i hi w a ha
  have hlb := length_of_mem_all j hj w b hb
  rcases mem_all_cases hmem with
    ⟨t, ht, u, hu, heq⟩ |
    ⟨i0, hi01, hi02, x, hx, y, hy, u, hu, hguard, heq⟩ |
    ⟨k, hk1, hk2, hcase⟩
  · obtain ⟨_, hopu⟩ := expr_append_inj heq
    rw [← hopu] at hu
    exact absurd hop (opcat_unary_comm op hu)
  · obtain ⟨_, hopu⟩ := expr_append_inj heq
    rw [← hopu] at hu
    exact absurd hop (opcat_noncomm_comm op hu)
  · rcases hcase with ⟨hEq, p, hp, u, hu, heq⟩ | ⟨hneq, x, hx, y, hy, u, hu, heq⟩
    · obtain ⟨hp1, hp2⟩ := mem_commPairs hp
      have hxu := stackUnit_of_mem_all k (by omega) w p.1 hp1
      have hyu := stackUnit_of_mem_all k (by omega) w p.2 hp2
      obtain ⟨heq1, _⟩ := expr_append_inj heq
      have hstacks : a.stack ++ b.stack = p.1.stack ++ p.2.stack := by
        have hc1 := congrArg GraphExpression.stack heq1
        simpa [GraphExpression.extend] using hc1
      obtain ⟨hax, hby⟩ := stackUnit_decomp hau hbu hxu hyu hstacks
      have hpa : p.1 = a := (expr_ext hax).symm
      have hpb : p.2 = b := (expr_ext hby).symm
      have hki : k = i := by
        have := length_of_mem_all k (by omega) w p.1 hp1
        rw [hpa, hla] at this
        omega
      subst hki
      refine ⟨by omega, fun _ => ?_⟩
      have hpab : p = (a, b) := Prod.ext hpa hpb
      rw [← hpab]
      exact hp
    · have hxu := stackUnit_of_mem_all k (by omega) w x hx
      have hyu := stackUnit_of_mem_all ((c' + 2) - 1 - k) (by omega) w y hy
      obtain ⟨heq1, _⟩ := expr_append_inj heq
      have hstacks : a.stack ++ b.stack = x.stack ++ y.stack := by
        have hc1 := congrArg GraphExpression.stack heq1
        simpa [GraphExpression.extend] using hc1
      obtain ⟨hax, hby⟩ := stackUnit_decomp hau hbu hxu hyu hstacks
      have hki : k = i := by
        have := length_of_mem_all k (by omega) w x hx
        rw [← (expr_ext hax : a = x), hla] at this
        omega
      have hkj : (c' + 2) - 1 - k = j := by
        have := length_of_mem_all ((c' + 2) - 1 - k) (by omega) w y hy
        rw [← (expr_ext hby : b = y), hlb] at this
        omega
      refine ⟨by omega, fun hijeq => ?_⟩
      exact absurd (by omega : k = (c' + 2) - 1 - k) hneq

/-! ### Claim theorems -/

/-- C1, counterexample: the claim says that for an expression built by
concatenating `a`'s stack, then `b`'s stack, then `operator.sub`,
`evaluate` returns `a - b`.  On a graph with `alpha = 4` and
`min_degree = 3`, taking `a = [alpha]` (value 4) and `b = [min_degree]`
(value 3), the source's `op(stack.pop(), stack.pop())` pops `b`'s value
first and passes it as the first argument, so the expression evaluates to
`3 - 4 = -1`, not `4 - 3 = 1`. -/
theorem c1_counterexample :
    (GraphExpression.mk [Op.alpha]).evaluate ⟨.ok 4, .ok 3⟩ = .ok 4 ∧
    (GraphExpression.mk [Op.minDegree]).evaluate ⟨.ok 4, .ok 3⟩ = .ok 3 ∧
    ((GraphExpression.mk [Op.alpha]).extend [Op.minDegree] |>.append Op.sub).evaluate
      ⟨.ok 4, .ok 3⟩ = .ok (-1) ∧
    ¬ ((GraphExpression.mk [Op.alpha]).extend [Op.minDegree] |>.append Op.sub).evaluate
      ⟨.ok 4, .ok 3⟩ = .ok (4 - 3) := by
  refine ⟨by decide, by decide, ?_, ?_⟩
  · norm_num [GraphExpression.evaluate, GraphExpression.extend, GraphExpression.append,
      evalStack, evalOp, applyGraphFn, unaryValue, binaryValue, _graph_invariants,
      _unary_operators, _binary_commutative_operators, _binary_noncommutative_operators]
    decide
  · norm_num [GraphExpression.evaluate, GraphExpression.extend, GraphExpression.append,
      evalStack, evalOp, applyGraphFn, unaryValue, binaryValue, _graph_invariants,
      _unary_operators, _binary_commutative_operators, _binary_noncommutative_operators]
    decide

/-- Evaluating a binary combination of two expressions applies the
operator to the value popped first (the second operand `b`) as first
argument. -/
theorem evaluate_comb (a b : GraphExpression) (op : Op)
    (hop : op ∈ _binary_commutative_operators ∨ op ∈ _binary_noncommutative_operators)
    (g : GraphInfo) (va vb : ℚ)
    (h1 : evalStack g a.stack [] = .ok [va])
    (h2 : evalStack g b.stack [va] = .ok [vb, va]) :
    ((a.extend b.stack).append op).evaluate g = binaryValue op vb va := by
  have hcomb : ((a.extend b.stack).append op).stack = a.stack ++ (b.stack ++ [op]) := by
    simp [GraphExpression.extend, GraphExpression.append]
  rw [GraphExpression.evaluate, hcomb, evalStack_append_ok h1 _, evalStack_append_ok h2 _]
  have ho' : (op = Op.add ∨ op = Op.mul) ∨ op = Op.sub ∨ op = Op.truediv ∨ op = Op.pow := by
    simpa [_binary_commutative_operators, _binary_noncommutative_operators] using hop
  rcases ho' with (rfl | rfl) | rfl | rfl | rfl <;>
    (cases hbv : binaryValue _ vb va <;>
      simp [evalStack, evalOp, _graph_invariants, _unary_operators,
        _binary_commutative_operators, _binary_noncommutative_operators, hbv])

/-- C1, amended: `GraphExpression.evaluate` pops `b` then `a` (in that pop
order) from the evaluation stack and pushes `op(b, a)` — the first popped
value is the first argument; in particular, for an expression built by
concatenating `a`'s stack, then `b`'s stack, then `operator.sub`,
`evaluate` returns `b - a`. -/
theorem c1_binary_operand_order (i j : ℕ) (hi : 1 ≤ i) (hj : 1 ≤ j) (w : Option Op)
    (a b : GraphExpression) (ha : a ∈ all_expressions i w) (hb : b ∈ all_expressions j w)
    (op : Op)
    (hop : op ∈ _binary_commutative_operators ∨ op ∈ _binary_noncommutative_operators)
    (g : GraphInfo) (hg : goodGraph g) (va vb : ℚ)
    (hva : a.evaluate g = .ok va) (hvb : b.evaluate g = .ok vb) :
    ((a.extend b.stack).append op).evaluate g = binaryValue op vb va ∧
    ((a.extend b.stack).append Op.sub).evaluate g = .ok (vb - va) := by
  have h1 := evalStack_of_evaluate_ok (evalsClean_of_mem_all i hi w a ha) hg hva
  have h2 := evalStack_of_evaluate_ok (evalsClean_of_mem_all j hj w b hb) hg hvb
  exact ⟨evaluate_comb a b op hop g va vb (h1 []) (h2 [va]),
    evaluate_comb a b Op.sub (Or.inr (by decide)) g va vb (h1 []) (h2 [va])⟩

/-- Witness for `c1_binary_operand_order`: `alpha = 4`, `min_degree = 3`,
`a = [alpha]`, `b = [min_degree]`, so `a + b` evaluates to `op(3, 4)` and
`a b sub` to `3 - 4`. -/
theorem c1_binary_operand_order_witness :
    ((GraphExpression.mk [Op.alpha]).extend [Op.minDegree] |>.append Op.add).evaluate
      ⟨.ok 4, .ok 3⟩ = binaryValue Op.add 3 4 ∧
    ((GraphExpression.mk [Op.alpha]).extend [Op.minDegree] |>.append Op.sub).evaluate
      ⟨.ok 4, .ok 3⟩ = .ok (3 - 4) :=
  c1_binary_operand_order 1 1 (by decide) (by decide) none ⟨[Op.alpha]⟩ ⟨[Op.minDegree]⟩
    (by decide) (by decide) Op.add (Or.inl (by decide)) ⟨.ok 4, .ok 3⟩ (by decide)
    4 3 (by decide) (by decide)

/-- C2, counterexample: the claim says a run never raises mid-search
because of numeric evaluation results.  With comparator `<`, target
invariant `alpha` and a corpus holding one graph on which `min_degree`
raises a `ValueError` (the graph with no vertices, where `min([])`
raises), every candidate statement evaluates to false, `max()` is applied
to an empty sequence, and the uncaught `ValueError` aborts the run. -/
theorem c2_counterexample :
    GraphBrain.conjecture Cmp.lt Op.alpha [⟨.ok 0, .error PyErr.valueError⟩] =
      .error PyErr.valueError := by
  decide

/-- C2, amended: under any of the four order comparators, if no candidate
statement evaluates to true on the first graph of the corpus, the run does
not complete: the `max`/`min` of the empty sequence of survivors raises a
`ValueError` that propagates out of `GraphBrain.conjecture`. -/
theorem c2_empty_survivors_raises (comparator : Cmp) (invariant : Op)
    (g : GraphInfo) (db : List GraphInfo)
    (hcmp : comparator = Cmp.lt ∨ comparator = Cmp.le ∨ comparator = Cmp.gt ∨
      comparator = Cmp.ge)
    (hfalse : ∀ s ∈ conjectureStatements comparator invariant,
      s.evaluate g = .ok false) :
    GraphBrain.conjecture comparator invariant (g :: db) = .error PyErr.valueError := by
  have hstep : conjectureStep comparator (conjectureStatements comparator invariant) g =
      .error PyErr.valueError := by
    rw [conjectureStep, filterE_false hfalse]
    rcases hcmp with rfl | rfl | rfl | rfl <;> simp [mapE]
  rw [GraphBrain.conjecture, conjectureLoop, hstep]

/-- Witness for `c2_empty_survivors_raises`: comparator `<=`, target
`alpha`, a two-graph corpus whose first graph has no vertices. -/
theorem c2_empty_survivors_raises_witness :
    GraphBrain.conjecture Cmp.le Op.alpha
      [⟨.ok 0, .error PyErr.valueError⟩, ⟨.ok 4, .ok 3⟩] =
      .error PyErr.valueError :=
  c2_empty_survivors_raises Cmp.le Op.alpha ⟨.ok 0, .error PyErr.valueError⟩
    [⟨.ok 4, .ok 3⟩] (Or.inr (Or.inl rfl)) (by decide)

/-- C3: the per-graph `gt`/`ge` selection of `GraphBrain.conjecture` does
compute the minimum left-hand value among the true statements, but it
appends the `(value, statement)` pairs of `evaluated` to the result
instead of the `Statement` objects (the `map(operator.itemgetter(1), ...)`
of the `lt`/`le` branch is missing on source line 55).  Here, on a graph
with `alpha = 1` and `min_degree = 2`, the true statement
`min_degree > alpha` is returned as the tuple `(2, statement)`, not as a
statement. -/
theorem c3_gt_branch_returns_pairs :
    conjectureStep Cmp.gt
      [GraphStatement.mk 0 ⟨[Op.minDegree]⟩ Cmp.gt ⟨[Op.alpha]⟩,
       GraphStatement.mk 1 ⟨[Op.alpha]⟩ Cmp.gt ⟨[Op.alpha]⟩]
      ⟨.ok 1, .ok 2⟩ =
      .ok [ConjectureItem.pair 2 (GraphStatement.mk 0 ⟨[Op.minDegree]⟩ Cmp.gt ⟨[Op.alpha]⟩)] := by
  decide

/-- C4, counterexample: two distinct `GraphStatement` objects with
structurally equal (lhs, comparator, rhs) triples are not equal for the
deduplication the code performs (`GraphStatement` has no `__eq__`, so
`set` compares by object identity, modelled by `sid`): both survive the
final `list(set(...))` dedup, refuting "at most one survives". -/
theorem c4_counterexample :
    ((GraphStatement.mk 0 ⟨[Op.minDegree]⟩ Cmp.le ⟨[Op.alpha]⟩).lhs =
        (GraphStatement.mk 1 ⟨[Op.minDegree]⟩ Cmp.le ⟨[Op.alpha]⟩).lhs ∧
      (GraphStatement.mk 0 ⟨[Op.minDegree]⟩ Cmp.le ⟨[Op.alpha]⟩).comparator =
        (GraphStatement.mk 1 ⟨[Op.minDegree]⟩ Cmp.le ⟨[Op.alpha]⟩).comparator ∧
      (GraphStatement.mk 0 ⟨[Op.minDegree]⟩ Cmp.le ⟨[Op.alpha]⟩).rhs =
        (GraphStatement.mk 1 ⟨[Op.minDegree]⟩ Cmp.le ⟨[Op.alpha]⟩).rhs) ∧
    ¬ GraphStatement.mk 0 ⟨[Op.minDegree]⟩ Cmp.le ⟨[Op.alpha]⟩ =
        GraphStatement.mk 1 ⟨[Op.minDegree]⟩ Cmp.le ⟨[Op.alpha]⟩ ∧
    List.dedup
        [ConjectureItem.stmt (GraphStatement.mk 0 ⟨[Op.minDegree]⟩ Cmp.le ⟨[Op.alpha]⟩),
         ConjectureItem.stmt (GraphStatement.mk 1 ⟨[Op.minDegree]⟩ Cmp.le ⟨[Op.alpha]⟩)] =
      [ConjectureItem.stmt (GraphStatement.mk 0 ⟨[Op.minDegree]⟩ Cmp.le ⟨[Op.alpha]⟩),
       ConjectureItem.stmt (GraphStatement.mk 1 ⟨[Op.minDegree]⟩ Cmp.le ⟨[Op.alpha]⟩)] := by
  refine ⟨⟨rfl, rfl, rfl⟩, by decide, ?_⟩
  rw [List.dedup_cons_of_not_mem (by simp), List.dedup_cons_of_not_mem (by simp),
    List.dedup_nil]

/-- C4, amended: statement objects are equal for the code's deduplication
exactly when they are the same object; the final dedup of
`GraphBrain.conjecture` therefore collapses repeated references to one
statement object (as arise when it is selected on several graphs) but
keeps two distinct objects even when their triples coincide. -/
theorem c4_identity_dedup (s t : GraphStatement) (hne : ¬ s = t) :
    List.dedup [ConjectureItem.stmt s, ConjectureItem.stmt t] =
      [ConjectureItem.stmt s, ConjectureItem.stmt t] ∧
    List.dedup [ConjectureItem.stmt s, ConjectureItem.stmt s] =
      [ConjectureItem.stmt s] := by
  constructor
  · rw [List.dedup_cons_of_not_mem (by simpa using hne),
      List.dedup_cons_of_not_mem (by simp), List.dedup_nil]
  · rw [List.dedup_cons_of_mem (by simp), List.dedup_cons_of_not_mem (by simp),
      List.dedup_nil]

/-- Witness for `c4_identity_dedup` at two concrete distinct statement
objects. -/
theorem c4_identity_dedup_witness :
    List.dedup [ConjectureItem.stmt (GraphStatement.mk 2 ⟨[Op.alpha]⟩ Cmp.eq ⟨[Op.alpha]⟩),
        ConjectureItem.stmt (GraphStatement.mk 3 ⟨[Op.alpha]⟩ Cmp.eq ⟨[Op.alpha]⟩)] =
      [ConjectureItem.stmt (GraphStatement.mk 2 ⟨[Op.alpha]⟩ Cmp.eq ⟨[Op.alpha]⟩),
       ConjectureItem.stmt (GraphStatement.mk 3 ⟨[Op.alpha]⟩ Cmp.eq ⟨[Op.alpha]⟩)] ∧
    List.dedup [ConjectureItem.stmt (GraphStatement.mk 2 ⟨[Op.alpha]⟩ Cmp.eq ⟨[Op.alpha]⟩),
        ConjectureItem.stmt (GraphStatement.mk 2 ⟨[Op.alpha]⟩ Cmp.eq ⟨[Op.alpha]⟩)] =
      [ConjectureItem.stmt (GraphStatement.mk 2 ⟨[Op.alpha]⟩ Cmp.eq ⟨[Op.alpha]⟩)] :=
  c4_identity_dedup _ _ (by decide)

/-- C5: `GraphStatement.evaluate` returns
`comparator(lhs.evaluate(g), rhs.evaluate(g))`; a `ValueError` or
`ZeroDivisionError` from either side yields `false`; any other error class
propagates (the left side is evaluated first, as in Python). -/
theorem c5_statement_evaluate :
    (∀ (s : GraphStatement) (g : GraphInfo) (a b : ℚ),
      s.lhs.evaluate g = .ok a → s.rhs.evaluate g = .ok b →
      s.evaluate g = .ok (cmpApply s.comparator a b)) ∧
    (∀ (s : GraphStatement) (g : GraphInfo) (e : PyErr),
      (e = PyErr.valueError ∨ e = PyErr.zeroDivisionError) →
      (s.lhs.evaluate g = .error e ∨
        (∃ a, s.lhs.evaluate g = .ok a ∧ s.rhs.evaluate g = .error e)) →
      s.evaluate g = .ok false) ∧
    (∀ (s : GraphStatement) (g : GraphInfo) (e : PyErr),
      ¬ e = PyErr.valueError → ¬ e = PyErr.zeroDivisionError →
      (s.lhs.evaluate g = .error e ∨
        (∃ a, s.lhs.evaluate g = .ok a ∧ s.rhs.evaluate g = .error e)) →
      s.evaluate g = .error e) := by
  refine ⟨?_, ?_, ?_⟩
  · intro s g a b ha hb
    rw [GraphStatement.evaluate]
    simp only [ha, hb]
  · intro s g e hcat hcase
    rw [GraphStatement.evaluate]
    rcases hcase with hl | ⟨a, hl, hr⟩
    · simp only [hl]
      rw [if_pos hcat]
    · simp only [hl, hr]
      rw [if_pos hcat]
  · intro s g e h1 h2 hcase
    have hcond : ¬ (e = PyErr.valueError ∨ e = PyErr.zeroDivisionError) := by
      intro h
      rcases h with h | h
      · exact h1 h
      · exact h2 h
    rw [GraphStatement.evaluate]
    rcases hcase with hl | ⟨a, hl, hr⟩
    · simp only [hl]
      rw [if_neg hcond]
    · simp only [hl, hr]
      rw [if_neg hcond]

/-- Witness for `c5_statement_evaluate`: the three behaviours at concrete
statements and graphs (comparator applied; `ValueError` absorbed as
false; an unrelated error class propagated). -/
theorem c5_statement_evaluate_witness :
    (GraphStatement.mk 0 ⟨[Op.minDegree]⟩ Cmp.le ⟨[Op.alpha]⟩).evaluate
      ⟨.ok 4, .ok 3⟩ = .ok true ∧
    (GraphStatement.mk 0 ⟨[Op.minDegree]⟩ Cmp.le ⟨[Op.alpha]⟩).evaluate
      ⟨.ok 4, .error PyErr.valueError⟩ = .ok false ∧
    (GraphStatement.mk 0 ⟨[Op.minDegree]⟩ Cmp.le ⟨[Op.alpha]⟩).evaluate
      ⟨.ok 4, .error PyErr.other⟩ = .error PyErr.other := by
  refine ⟨?_, ?_, ?_⟩
  · exact (c5_statement_evaluate.1 _ ⟨.ok 4, .ok 3⟩ 3 4 (by decide) (by decide)).trans
      (by decide)
  · exact c5_statement_evaluate.2.1 _ ⟨.ok 4, .error PyErr.valueError⟩ PyErr.valueError
      (Or.inl rfl) (Or.inl (by decide))
  · exact c5_statement_evaluate.2.2 _ ⟨.ok 4, .error PyErr.other⟩ PyErr.other
      (by decide) (by decide) (Or.inl (by decide))

/-- C6: for every complexity `c ≥ 1` and every exclusion argument, every
expression in the sequence returned by
`GraphExpression.all_expressions(c, without)` has a stack of exactly `c`
elements. -/
theorem c6_complexity_accounting (c : ℕ) (hc : 1 ≤ c) (w : Option Op)
    (s : GraphExpression) (hs : s ∈ all_expressions c w) :
    s.stack.length = c :=
  length_of_mem_all c hc w s hs

/-- Witness for `c6_complexity_accounting` at complexity 3. -/
theorem c6_complexity_accounting_witness :
    (GraphExpression.mk [Op.alpha, Op.increment, Op.sqrt]).stack.length = 3 :=
  c6_complexity_accounting 3 (by decide) none ⟨[Op.alpha, Op.increment, Op.sqrt]⟩
    (by decide)

/-- C7: every expression produced by `GraphExpression.all_expressions` is
a well-formed postfix program: on a graph whose oracles do not themselves
raise the pop `IndexError`, simulating `GraphExpression.evaluate` never
pops from an empty stack (no `IndexError` arises), and when the whole
stack is consumed without an arithmetic error exactly one value remains. -/
theorem c7_well_formed_stack_program (c : ℕ) (hc : 1 ≤ c) (w : Option Op)
    (s : GraphExpression) (hs : s ∈ all_expressions c w)
    (g : GraphInfo) (hg : goodGraph g) :
    (∀ e, evalStack g s.stack [] = .error e → ¬ e = PyErr.indexError) ∧
    (∀ st, evalStack g s.stack [] = .ok st → st.length = 1) ∧
    ¬ s.evaluate g = .error PyErr.indexError := by
  rcases evalsClean_of_mem_all c hc w s hs g hg with ⟨e, he, herr⟩ | ⟨v, hok⟩
  · have hev : s.evaluate g = .error e := by
      rw [GraphExpression.evaluate]
      simp only [herr []]
    refine ⟨fun e' he' => ?_, fun st hst => ?_, fun hcontra => ?_⟩
    · rw [herr []] at he'
      injection he' with h
      rw [← h]
      exact he
    · rw [herr []] at hst
      exact absurd hst (by simp)
    · rw [hev] at hcontra
      injection hcontra with h
      exact he h
  · have hev : s.evaluate g = .ok v := by
      rw [GraphExpression.evaluate]
      simp only [hok []]
    refine ⟨fun e' he' => ?_, fun st hst => ?_, fun hcontra => ?_⟩
    · rw [hok []] at he'
      exact absurd he' (by simp)
    · rw [hok []] at hst
      injection hst with h
      rw [← h]
      rfl
    · rw [hev] at hcontra
      exact absurd hcontra (by simp)

/-- Witness for `c7_well_formed_stack_program`: the complexity-3 expression
`alpha min_degree sub` on a graph with `alpha = 4`, `min_degree = 3`. -/
theorem c7_well_formed_stack_program_witness :
    ¬ (GraphExpression.mk [Op.alpha, Op.minDegree, Op.sub]).evaluate
      ⟨.ok 4, .ok 3⟩ = .error PyErr.indexError :=
  (c7_well_formed_stack_program 3 (by decide) none ⟨[Op.alpha, Op.minDegree, Op.sub]⟩
    (by decide) ⟨.ok 4, .ok 3⟩ (by decide)).2.2

/-- C8: for a fixed complexity and a fixed commutative operator, the
enumerator never returns both the expression formed from `(a, b)` and the
expression formed from `(b, a)` as separate results when `a` and `b` are
distinct generated sub-expressions of complementary complexity. -/
theorem c8_commutative_non_duplication (c : ℕ) (w : Option Op)
    (op : Op) (hop : op ∈ _binary_commutative_operators)
    (a b : GraphExpression) (i j : ℕ)
    (ha : a ∈ all_expressions i w) (hb : b ∈ all_expressions j w)
    (hij : i + j + 1 = c) (hne : ¬ a = b) :
    ¬ ((a.extend b.stack).append op ∈ all_expressions c w ∧
       (b.extend a.stack).append op ∈ all_expressions c w) := by
  rintro ⟨hab, hba⟩
  have hi : 1 ≤ i := by
    by_contra h
    have hi0 : i = 0 := by omega
    subst hi0
    rw [all_expressions_zero] at ha
    exact absurd ha (List.not_mem_nil a)
  have hj : 1 ≤ j := by
    by_contra h
    have hj0 : j = 0 := by omega
    subst hj0
    rw [all_expressions_zero] at hb
    exact absurd hb (List.not_mem_nil b)
  obtain ⟨h1, h2⟩ := comm_root_split hop hi hj ha hb hij hab
  obtain ⟨h3, h4⟩ := comm_root_split hop hj hi hb ha (by omega) hba
  have hij' : i = j := by omega
  subst hij'
  exact hne (commPairs_both (all_expressions_nodup i w) (h2 rfl) (h4 rfl))

/-- Witness for `c8_commutative_non_duplication`: at complexity 3 the
enumerator cannot contain both `alpha + min_degree` and
`min_degree + alpha`. -/
theorem c8_commutative_non_duplication_witness :
    ¬ (((GraphExpression.mk [Op.alpha]).extend [Op.minDegree]).append Op.add ∈
         all_expressions 3 none ∧
       ((GraphExpression.mk [Op.minDegree]).extend [Op.alpha]).append Op.add ∈
         all_expressions 3 none) :=
  c8_commutative_non_duplication 3 none Op.add (by decide) ⟨[Op.alpha]⟩
    ⟨[Op.minDegree]⟩ 1 1 (by decide) (by decide) (by decide) (by decide)

/-- C9, counterexample: the claim says the selector fails fast with a
configuration error on an empty corpus.  The code performs no validation:
with an empty corpus it silently completes the full enumeration and
returns the empty set. -/
theorem c9_counterexample :
    GraphBrain.conjecture Cmp.lt Op.alpha [] = .ok [] := by
  decide

/-- C9, amended: the selector performs no configuration validation at all:
for every comparator (valid or not, since an unrecognized comparator is
silently routed to the equality branch) and every target invariant, an
empty corpus yields a normal empty result instead of a configuration
error, and the complexity limit is the unchecked class constant 5. -/
theorem c9_no_validation (comparator : Cmp) (invariant : Op) :
    GraphBrain.conjecture comparator invariant [] = .ok [] := by
  rw [GraphBrain.conjecture, conjectureLoop]
  rfl

/-- C10: for every complexity `c ≥ 1` and every leaf invariant `X` of the
registry, no expression returned by `all_expressions(c, without=X)`
contains `X` anywhere in its stack; and for this registry of exactly two
leaf invariants, `all_expressions(1, without=X)` holds exactly one
expression. -/
theorem c10_exclusion :
    (∀ c, 1 ≤ c → ∀ X ∈ _graph_invariants,
      ∀ s ∈ all_expressions c (some X), X ∉ s.stack) ∧
    (∀ X ∈ _graph_invariants, (all_expressions 1 (some X)).length = 1) := by
  refine ⟨without_not_mem, ?_⟩
  intro X hX
  rcases (by simpa [_graph_invariants] using hX : X = Op.alpha ∨ X = Op.minDegree) with
    rfl | rfl <;> decide

/-- Witness for `c10_exclusion`: the excluded leaf `alpha` is absent from
a complexity-2 result, and exactly one complexity-1 expression remains. -/
theorem c10_exclusion_witness :
    Op.alpha ∉ (GraphExpression.mk [Op.minDegree, Op.sqrt]).stack ∧
    (all_expressions 1 (some Op.alpha)).length = 1 :=
  ⟨c10_exclusion.1 2 (by decide) Op.alpha (by decide)
    ⟨[Op.minDegree, Op.sqrt]⟩ (by decide),
   c10_exclusion.2 Op.alpha (by decide)⟩
